import Mathlib

/-!
Verification of the `mage` image-thumbnail service (Go) against its
natural-language specification.  Go code is shallowly embedded: Go strings
become `List Char`, byte slices become `List Nat` (each element < 256),
machine integers become `Int`/`Nat` with explicit wrap-around where Go can
overflow, fallible functions return `Option`/`Except`, and stateful
components (the disk cache) become explicit state-passing step functions.
-/

set_option maxRecDepth 4096

deriving instance DecidableEq for Except

namespace Mage

/-- Go strings, embedded as lists of characters. -/
abbrev Str := List Char

/-- `strings.HasPrefix` (for a list-embedded string). -/
def strHasPre (s pre : Str) : Bool :=
  match pre, s with
  | [], _ => true
  | _ :: _, [] => false
  | p :: ps, c :: cs => p == c && strHasPre cs ps

/-- `strings.HasSuffix`. -/
def strHasSuf (s suf : Str) : Bool :=
  strHasPre s.reverse suf.reverse

/-- `strings.TrimPrefix(s, pre)`: removes `pre` once if present. -/
def strTrimPre (s pre : Str) : Str :=
  if strHasPre s pre then s.drop pre.length else s

/-- `strings.TrimSuffix(s, suf)`. -/
def strTrimSuf (s suf : Str) : Str :=
  if strHasSuf s suf then s.take (s.length - suf.length) else s

/-- Go's ASCII space set used by `strings.TrimSpace` (the inputs handled by
the parser are URL path tokens, so the Unicode fallback never fires). -/
def goIsSpace (c : Char) : Bool :=
  c == ' ' || c == '\t' || c == '\n' || c == '\x0b' || c == '\x0c' || c == '\r'

/-- `strings.TrimSpace`. -/
def strTrimSpace (s : Str) : Str :=
  ((s.dropWhile goIsSpace).reverse.dropWhile goIsSpace).reverse

/-- `strings.SplitN(s, sep, n)` for a one-character separator `sep` and
`n ≥ 1`: at most `n` pieces, the last piece keeps the remainder. -/
def splitNChar (sep : Char) : Nat → Str → List Str
  | 0, s => [s]
  | 1, s => [s]
  | Nat.succ n, s =>
    match s.findIdx? (· == sep) with
    | none => [s]
    | some i => s.take i :: splitNChar sep n (s.drop (i + 1))

/-- `strings.Split(s, sep)` for a one-character separator: no piece limit,
realised as `SplitN` with a piece budget that can never be exhausted. -/
def splitChar (sep : Char) (s : Str) : List Str :=
  splitNChar sep (s.length + 1) s

/-- `strings.IndexByte(s, c) != -1`, i.e. membership of a character. -/
def strContains (s : Str) (c : Char) : Bool := s.any (· == c)

/-- `strings.LastIndex(s, sep)` for a one-character separator: index of the
last occurrence, or `none`. -/
def lastIdxChar (s : Str) (c : Char) : Option Nat :=
  match s.reverse.findIdx? (· == c) with
  | none => none
  | some i => some (s.length - 1 - i)

/-- Go `strings.ToLower` restricted to ASCII (URL tokens). -/
def strToLower (s : Str) : Str := s.map Char.toLower

/-! ## SHA-256 and HMAC (Go `crypto/sha256`, `crypto/hmac`, `encoding/hex`)

The Go standard library implementation, embedded over `List Nat` bytes and
`Nat` words reduced mod 2^32. -/

/-- Reduce to a 32-bit word. -/
def w32 (n : Nat) : Nat := n % 4294967296

/-- 32-bit rotate right. -/
def rotr32 (x n : Nat) : Nat := w32 ((x >>> n) ||| (x <<< (32 - n)))

/-- XOR of three words, used by the four sigma functions below. -/
def xor3 (a b c : Nat) : Nat := a ^^^ (b ^^^ c)

def shaCh (x y z : Nat) : Nat := (x &&& y) ^^^ ((x ^^^ 4294967295) &&& z)

def shaMaj (x y z : Nat) : Nat := (x &&& y) ^^^ (x &&& z) ^^^ (y &&& z)

def bigSigma0 (x : Nat) : Nat := xor3 (rotr32 x 2) (rotr32 x 13) (rotr32 x 22)

def bigSigma1 (x : Nat) : Nat := xor3 (rotr32 x 6) (rotr32 x 11) (rotr32 x 25)

def smallSigma0 (x : Nat) : Nat := xor3 (rotr32 x 7) (rotr32 x 18) (x >>> 3)

def smallSigma1 (x : Nat) : Nat := xor3 (rotr32 x 17) (rotr32 x 19) (x >>> 10)

/-- The SHA-256 round constants (FIPS 180-4 section 4.2.2), written here in
decimal and in reverse order; `shaK` restores the forward order. -/
def shaKrev : List Nat :=
  [3329325298, 3204031479, 2756734187, 2428436474,
   2361852424, 2227730452, 2024104815, 1955562222,
   1747873779, 1537002063, 1322822218, 958139571,
   883997877, 659060556, 506948616, 430227734,
   275423344, 4094571909, 3600352804, 3516065817,
   3345764771, 3259730800, 2820302411, 2730485921,
   2456956037, 2177026350, 1986661051, 1695183700,
   1396182291, 1294757372, 773529912, 666307205,
   338241895, 113926993, 3584528711, 3336571891,
   3210313671, 2952996808, 2821834349, 2554220882,
   1996064986, 1555081692, 1249150122, 770255983,
   604807628, 264347078, 4022224774, 3835390401,
   3248222580, 2614888103, 2162078206, 1925078388,
   1426881987, 607225278, 310598401, 3624381080,
   2870763221, 2453635748, 1508970993, 961987163,
   3921009573, 3049323471, 1899447441, 1116352408]

/-- The SHA-256 round constants in their forward order. -/
def shaK : List Nat := shaKrev.reverse

/-- The big-endian bytes of the low `8 * k` bits of a number. -/
def beBytes : Nat → Nat → List Nat
  | 0, _ => []
  | k + 1, x => (x >>> (8 * k)) % 256 :: beBytes k x

/-- SHA-256 message padding: append 0x80, zeros, and the 64-bit big-endian
bit length so the total length is a multiple of 64 bytes. -/
def shaPad (msg : List Nat) : List Nat :=
  let len := msg.length
  let bitLen := (8 * len) % 18446744073709551616
  let zeros := (119 - len % 64) % 64
  msg ++ 0x80 :: List.replicate zeros 0 ++ beBytes 8 bitLen

/-- Split a byte list into 64-byte chunks. -/
def chunks64 (l : List Nat) : List (List Nat) :=
  if h : l = [] then [] else
    have : l.length - 64 < l.length := by
      cases l with
      | nil => exact absurd rfl h
      | cons a t => simp; omega
    l.take 64 :: chunks64 (l.drop 64)
termination_by l.length
decreasing_by simpa using this

/-- Group bytes into big-endian 32-bit words. -/
def toWords : List Nat → List Nat
  | b0 :: b1 :: b2 :: b3 :: rest =>
    (b0 <<< 24 ||| b1 <<< 16 ||| b2 <<< 8 ||| b3) :: toWords rest
  | _ => []

/-- One extension step of the SHA-256 message schedule. -/
def schedStep (w : List Nat) : List Nat :=
  w ++ [w32 (smallSigma1 (w.getD (w.length - 2) 0) + w.getD (w.length - 7) 0 +
             smallSigma0 (w.getD (w.length - 15) 0) + w.getD (w.length - 16) 0)]

/-- Extend the 16 chunk words to the 64-entry message schedule. -/
def schedule (w16 : List Nat) : List Nat :=
  (List.range 48).foldl (fun w _ => schedStep w) w16

/-- The eight SHA-256 working variables. -/
structure H8 where
  a : Nat
  b : Nat
  c : Nat
  d : Nat
  e : Nat
  f : Nat
  g : Nat
  h : Nat
deriving Repr, DecidableEq

/-- The SHA-256 initial hash value (FIPS 180-4 section 5.3.3), in decimal. -/
def shaH0 : H8 where
  a := 1779033703
  b := 3144134277
  c := 1013904242
  d := 2773480762
  e := 1359893119
  f := 2600822924
  g := 528734635
  h := 1541459225

/-- One SHA-256 compression round; `kw` is `K[i] + W[i]` mod 2^32. -/
def shaRound (st : H8) (kw : Nat) : H8 :=
  let t1 := w32 (st.h + bigSigma1 st.e + shaCh st.e st.f st.g + kw)
  let t2 := w32 (bigSigma0 st.a + shaMaj st.a st.b st.c)
  ⟨w32 (t1 + t2), st.a, st.b, st.c, w32 (st.d + t1), st.e, st.f, st.g⟩

/-- Process one 64-byte chunk. -/
def processChunk (st : H8) (chunk : List Nat) : H8 :=
  let w := schedule (toWords chunk)
  let kws := (shaK.zip w).map fun p => w32 (p.1 + p.2)
  let t := kws.foldl shaRound st
  ⟨w32 (st.a + t.a), w32 (st.b + t.b), w32 (st.c + t.c), w32 (st.d + t.d),
   w32 (st.e + t.e), w32 (st.f + t.f), w32 (st.g + t.g), w32 (st.h + t.h)⟩

/-- Big-endian bytes of one 32-bit word. -/
def wordBytes (x : Nat) : List Nat := beBytes 4 x

/-- The 32 digest bytes of a final state. -/
def digestBytes (st : H8) : List Nat :=
  wordBytes st.a ++ wordBytes st.b ++ wordBytes st.c ++ wordBytes st.d ++
  wordBytes st.e ++ wordBytes st.f ++ wordBytes st.g ++ wordBytes st.h

/-- SHA-256 of a byte list. -/
def sha256 (msg : List Nat) : List Nat :=
  digestBytes ((chunks64 (shaPad msg)).foldl processChunk shaH0)

/-- HMAC-SHA256 (Go `crypto/hmac` with `sha256.New`): block size 64. -/
def hmacSHA256 (key msg : List Nat) : List Nat :=
  let k0 := if 64 < key.length then sha256 key else key
  let k := k0 ++ List.replicate (64 - k0.length) 0
  let ipad := k.map (fun b => b ^^^ 0x36)
  let opad := k.map (fun b => b ^^^ 0x5c)
  sha256 (opad ++ sha256 (ipad ++ msg))

/-- One lowercase hex digit (Go `encoding/hex`). -/
def hexDigit (n : Nat) : Char :=
  if n < 10 then Char.ofNat (48 + n) else Char.ofNat (87 + n)

/-- `hex.EncodeToString`. -/
def hexEncode (bs : List Nat) : Str :=
  bs.flatMap fun b => [hexDigit (b / 16), hexDigit (b % 16)]

/-- UTF-8 encoding of one character (Go `[]byte(string)` conversion). -/
def utf8Char (c : Char) : List Nat :=
  let n := c.toNat
  if n < 0x80 then [n]
  else if n < 0x800 then [0xc0 ||| (n >>> 6), 0x80 ||| (n &&& 0x3f)]
  else if n < 0x10000 then
    [0xe0 ||| (n >>> 12), 0x80 ||| ((n >>> 6) &&& 0x3f), 0x80 ||| (n &&& 0x3f)]
  else
    [0xf0 ||| (n >>> 18), 0x80 ||| ((n >>> 12) &&& 0x3f),
     0x80 ||| ((n >>> 6) &&& 0x3f), 0x80 ||| (n &&& 0x3f)]

/-- Go `[]byte(s)`: the UTF-8 bytes of a string. -/
def strBytes (s : Str) : List Nat := s.flatMap utf8Char

/-! ## Signature verification (`internal/parser`, `Signature`)

Embeds the current `Signature.Verify` / `signPayloadPath`.  The four
distinct error returns of `Verify` are represented by an error enum; `nil`
becomes `none`. -/

/-- The fields of `operations.Request` that signature verification reads. -/
structure Request where
  providedSignature : Str
  signaturePayload : Str
deriving Repr, DecidableEq

/-- The distinct error returns of `Signature.Verify`, in source order. -/
inductive VerifyError where
  | sigNotConfigured
  | sigRequired
  | emptyPayload
  | mismatch
deriving Repr, DecidableEq

/-- `signPayloadPath(secretKey, payloadPath)`: prepends a slash when the
payload is empty or does not start with one, then takes the first 16 hex
characters of the HMAC-SHA256 digest. -/
def signPayloadPath (secretKey payloadPath : Str) : Str :=
  let payloadPath :=
    if payloadPath.isEmpty || payloadPath.head? != some '/' then
      '/' :: payloadPath
    else payloadPath
  (hexEncode (hmacSHA256 (strBytes secretKey) (strBytes payloadPath))).take 16

/-- `Signature.IsEnabled`. -/
def sigIsEnabled (secretKey : Str) : Bool := !secretKey.isEmpty

/-- `Signature.Verify(req)`. -/
def sigVerify (secretKey : Str) (req : Request) : Option VerifyError :=
  if !sigIsEnabled secretKey then
    if !req.providedSignature.isEmpty then some .sigNotConfigured
    else none
  else if req.providedSignature.isEmpty then some .sigRequired
  else if req.signaturePayload.isEmpty then some .emptyPayload
  else if req.providedSignature ≠ signPayloadPath secretKey req.signaturePayload then
    some .mismatch
  else none

/-- The expected signature exactly as the SPEC words it (for the refinement
comparison in claim C1): first 16 hex characters of
`HMAC_SHA256(secret, plan.signature_payload)`, with no slash normalisation. -/
def specExpectedSig (secret payload : Str) : Str :=
  (hexEncode (hmacSHA256 (strBytes secret) (strBytes payload))).take 16

/-! ## URL parsing: signature/size disambiguation (`internal/parser/url.go`)

`ParseURL` trims the leading slash, splits into at most five segments,
checks the `thumbs` prefix, and decides whether the second segment is a
signature by testing `ResizeOperation.IsSizeFormat`.  The embedding below
covers `ParseURL` up to and including that decision and the signature
format check (url.go lines 39-100); the later stages (size parsing, filter
parsing, alias handling) do not influence which segment is treated as the
signature and are embedded separately. -/

/-- `ResizeOperation.IsSizeFormat`: true iff the string contains an `x`. -/
def isSizeFormat (s : Str) : Bool := strContains s 'x'

/-- `isValidSignature`: 8 to 64 characters, all hex digits. -/
def isValidSignature (sig : Str) : Bool :=
  if sig.length < 8 || 64 < sig.length then false
  else sig.all fun c =>
    ('0' ≤ c && c ≤ '9') || ('a' ≤ c && c ≤ 'f') || ('A' ≤ c && c ≤ 'F')

/-- The size regex `^(\d*)x(\d*)$` from the spec's disambiguation rule:
exactly one `x`, with (possibly empty) digit runs on both sides.  This is
the SPEC side of claim C3; the code side is `isSizeFormat`. -/
def specSizeRegex (s : Str) : Bool :=
  match splitChar 'x' s with
  | [w, h] => w.all Char.isDigit && h.all Char.isDigit
  | _ => false

/-- Outcome of the signature/size disambiguation inside `ParseURL`. -/
structure SigSplit where
  hasSig : Bool
  sig : Str
  sizeIndex : Nat
deriving Repr, DecidableEq

/-- The distinct error returns of the embedded `ParseURL` portion. -/
inductive ParseURLError where
  | tooFewParts
  | badRoot
  | tooFewPartsSigned
  | badSignatureFormat
  | emptyPayload
deriving Repr, DecidableEq

/-- `ParseURL` (url.go lines 39-100): leading-slash trim, `SplitN(path,"/",5)`,
`thumbs` root check, signature/size disambiguation via `IsSizeFormat`, and
the signature format check. -/
def parseURLSigSplit (path : Str) : Except ParseURLError SigSplit :=
  let path := strTrimPre path "/".data
  let parts := splitNChar '/' 5 path
  if parts.length < 3 then .error .tooFewParts
  else if parts.getD 0 [] ≠ "thumbs".data then .error .badRoot
  else if !isSizeFormat (parts.getD 1 []) then
    -- has signature
    if parts.length < 4 then .error .tooFewPartsSigned
    else if !isValidSignature (parts.getD 1 []) then .error .badSignatureFormat
    else .ok ⟨true, parts.getD 1 [], 2⟩
  else
    -- no signature
    .ok ⟨false, [], 1⟩

/-! ## Size parsing and validation (`internal/operations/resize.go`) -/

/-- Two to the sixty-third, for Go `int` (64-bit) wrap-around. -/
def int64Mod : Int := 18446744073709551616

/-- Wrap an integer to the signed 64-bit range, as Go `int` overflow does. -/
def wrap64 (x : Int) : Int := (x + 9223372036854775808) % int64Mod - 9223372036854775808

/-- Errors of `parsePositiveInt`. -/
inductive NumError where
  | empty
  | notNumeric
  | notPositive
deriving Repr, DecidableEq

/-- `parsePositiveInt` (resize.go lines 256-274): digit fold with Go `int`
wrap-around, then a positivity check. -/
def parsePositiveInt (s : Str) : Except NumError Int :=
  if s.isEmpty then .error .empty
  else if !(s.all fun c => 48 ≤ c.toNat && c.toNat ≤ 57) then .error .notNumeric
  else
    let num := s.foldl (fun num c => wrap64 (num * 10 + (c.toNat - 48))) 0
    if num ≤ 0 then .error .notPositive else .ok num

/-- The overflow-free digit accumulation (used to relate the Go `int`
folds above to the numeric value of a digit string). -/
def decFold (a : Nat) (cs : Str) : Nat :=
  cs.foldl (fun acc c => acc * 10 + (c.toNat - 48)) a

/-- Errors of `ResizeOperation.ParseSize`. -/
inductive SizeError where
  | noSeparator
  | badWidth (e : NumError)
  | badHeight (e : NumError)
deriving Repr, DecidableEq

/-- The width/height fields of a `ResizeOperation` after parsing. -/
structure SizeSpec where
  width : Option Int
  height : Option Int
deriving Repr, DecidableEq

/-- `ResizeOperation.ParseSize` (resize.go lines 41-73). -/
def parseSize (sizeStr : Str) : Except SizeError SizeSpec :=
  match sizeStr.findIdx? (· == 'x') with
  | none => .error .noSeparator
  | some xIndex =>
    let widthStr := sizeStr.take xIndex
    let heightStr := sizeStr.drop (xIndex + 1)
    if widthStr.isEmpty && heightStr.isEmpty then .ok ⟨none, none⟩
    else
      match (if widthStr.isEmpty then .ok none else (parsePositiveInt widthStr).map some :
               Except NumError (Option Int)) with
      | .error e => .error (.badWidth e)
      | .ok w =>
        match (if heightStr.isEmpty then .ok none else (parsePositiveInt heightStr).map some :
                 Except NumError (Option Int)) with
        | .error e => .error (.badHeight e)
        | .ok h => .ok ⟨w, h⟩

/-- Errors of `ResizeOperation.Validate`. -/
inductive ValidateError where
  | widthTooLarge
  | heightTooLarge
  | resolutionTooLarge
deriving Repr, DecidableEq

/-- `ResizeOperation.Validate` (resize.go lines 84-100), with the
registry's configured limits. -/
def resizeValidate (maxWidth maxHeight maxResolution : Int) (sz : SizeSpec) :
    Option ValidateError :=
  if sz.width.any fun w => decide (maxWidth < w) then some .widthTooLarge
  else if sz.height.any fun h => decide (maxHeight < h) then some .heightTooLarge
  else
    match sz.width, sz.height with
    | some w, some h =>
      if maxResolution < w * h then some .resolutionTooLarge else none
    | _, _ => none

/-! ## Format filter parsing (`FormatOperation.Parse`, operations package) -/

/-- Result of `FormatOperation.Parse`: Go returns `(handled bool, err)` and
stores the parsed format on success. -/
inductive FormatParse where
  | notHandled
  | missingParen
  | emptyArg
  | unsupported
  | handled (format : Str)
deriving Repr, DecidableEq

/-- `FormatOperation.Parse` (the `FormatOperation` implementation shipped in
the operations package): strip `format(`/`)`, trim, lowercase, and accept
exactly `webp`, `jpeg`, `png`, `jpg`. -/
def formatParse (filter : Str) : FormatParse :=
  if !strHasPre filter "format(".data then .notHandled
  else if !strHasSuf filter ")".data then .missingParen
  else
    let content := (filter.drop 7).take (filter.length - 1 - 7)
    let content := strTrimSpace content
    if content.isEmpty then .emptyArg
    else
      let format := strToLower content
      if format = "webp".data ∨ format = "jpeg".data ∨ format = "png".data ∨
         format = "jpg".data then .handled format
      else .unsupported

/-! ## Resize apply (`ResizeOperation.Apply`, resize.go lines 102-254)

The vips image is modelled by its dimensions, tracked exactly over `ℚ`
(libvips' per-pixel rounding is below the granularity of the claims, which
are about which scale factor is applied).  `vips.Image.Resize(scale, opts)`
scales the width by `scale` and the height by `opts.Vscale`;
`ThumbnailImage` with centre crop produces exactly the requested
dimensions, and with `SizeDown` shrinks (never enlarges) to fit inside
them. -/

/-- A vips image reduced to its dimensions. -/
structure Img where
  width : ℚ
  height : ℚ
deriving Repr, DecidableEq

/-- The resize-relevant fields of `ResizeOperation`. -/
structure ResizeOp where
  width : Option Int
  height : Option Int
  fit : Str
  fillColor : Str
deriving Repr, DecidableEq

/-- `vips.Image.Resize(scale, options)` with `options.Vscale = vscale`. -/
def vipsResize (img : Img) (scale vscale : ℚ) : Img :=
  ⟨img.width * scale, img.height * vscale⟩

/-- `ResizeOperation.resizeHeightOnly` (resize.go lines 122-138). -/
def resizeHeightOnly (img : Img) (height : Int) : Except Unit Img :=
  let currentHeight := img.height
  if currentHeight ≤ 0 then .error ()
  else if (height : ℚ) = currentHeight then .ok img
  else
    let scale := (height : ℚ) / currentHeight
    .ok (vipsResize img scale scale)

/-- `ResizeOperation.resizeWidthOnly` (resize.go lines 140-156). -/
def resizeWidthOnly (img : Img) (width : Int) : Except Unit Img :=
  let currentWidth := img.width
  if currentWidth ≤ 0 then .error ()
  else if (width : ℚ) = currentWidth then .ok img
  else
    let scale := (width : ℚ) / currentWidth
    .ok (vipsResize img scale scale)

/-- `ResizeOperation.resizeFill` (resize.go lines 173-254) at the dimension
level: `ThumbnailImage` with `SizeDown` shrinks to fit inside the target
box without enlarging, then `Embed` pads to the exact target box. -/
def resizeFill (img : Img) (targetWidth targetHeight : Int) : Except Unit Img :=
  let scale := min 1 (min ((targetWidth : ℚ) / img.width)
                         ((targetHeight : ℚ) / img.height))
  let resized := vipsResize img scale scale
  if resized.width = (targetWidth : ℚ) ∧ resized.height = (targetHeight : ℚ) then
    .ok resized
  else .ok ⟨(targetWidth : ℚ), (targetHeight : ℚ)⟩

/-- `ResizeOperation.resizeBoth` (resize.go lines 158-171): `fill` pads,
anything else is cover mode, whose `ThumbnailImage` centre-crop yields
exactly the requested dimensions. -/
def resizeBoth (o : ResizeOp) (img : Img) (width height : Int) : Except Unit Img :=
  if o.fit = "fill".data then resizeFill img width height
  else .ok ⟨(width : ℚ), (height : ℚ)⟩

/-- `ResizeOperation.Apply` (resize.go lines 102-120). -/
def resizeApply (o : ResizeOp) (img : Img) : Except Unit Img :=
  match o.width, o.height with
  | none, none => .ok img
  | none, some h => resizeHeightOnly img h
  | some w, none => resizeWidthOnly img w
  | some w, some h => resizeBoth o img w h

/-! ## Go time values -/

/-- A Go `time.Time`, reduced to seconds and nanoseconds since the epoch;
`Unix()` returns the seconds. -/
structure GoTime where
  sec : Int
  nsec : Nat
deriving Repr, DecidableEq

/-- `time.Time.After`. -/
def GoTime.after (t u : GoTime) : Bool :=
  u.sec < t.sec || (t.sec == u.sec && u.nsec < t.nsec)

/-- `time.Time.Add` of a duration in nanoseconds. -/
def GoTime.addNanos (t : GoTime) (d : Int) : GoTime :=
  let total := t.sec * 1000000000 + t.nsec + d
  let sec := total.fdiv 1000000000
  ⟨sec, (total - sec * 1000000000).toNat⟩

/-! ## Disk cache filenames (`disk_cache.go` lines 999-1039) -/

/-- Decimal digits of a natural number (most significant first). -/
def natDecChars (n : Nat) : Str :=
  if n = 0 then ['0']
  else (Nat.digits 10 n).reverse.map fun d => Char.ofNat (48 + d)

/-- Go `fmt.Sprintf("%d", n)` for a signed integer. -/
def intDecChars (n : Int) : Str :=
  if n < 0 then '-' :: natDecChars (-n).toNat else natDecChars n.toNat

/-- Go `strconv.ParseInt(s, 10, 64)`: optional sign, decimal digits,
64-bit range check (Go reports `ErrRange` on overflow, which the caller
treats as an error). -/
def parseInt64 (s : Str) : Option Int :=
  match s with
  | [] => none
  | c :: rest =>
    let neg : Bool := c == '-'
    let digs := if c == '-' || c == '+' then rest else c :: rest
    if digs.isEmpty then none
    else if !(digs.all fun d => 48 ≤ d.toNat && d.toNat ≤ 57) then none
    else
      let n : Nat := digs.foldl (fun acc d => acc * 10 + (d.toNat - 48)) 0
      let v : Int := if neg then -(n : Int) else (n : Int)
      if v < -9223372036854775808 ∨ 9223372036854775807 < v then none else some v

/-- The base name produced by `getFilePathWithExpiration`:
`fmt.Sprintf("%s_%d.cache", hashStr, expiresAt.Unix())`.  (`filepath.Join`
only prefixes directories, so this is exactly the base name of the
generated path.) -/
def cacheFileName (hashStr : Str) (expiresAt : GoTime) : Str :=
  hashStr ++ '_' :: intDecChars expiresAt.sec ++ ".cache".data

/-- The two-level fan-out directory of `getDirPath`, relative to the base
path: `hash[n-2:n]/hash[n-4:n-2]` (real hashes are 64 hex characters). -/
def getDirPath (hashStr : Str) : Str × Str :=
  let n := hashStr.length
  (hashStr.drop (n - 2), (hashStr.drop (n - 4)).take 2)

/-- `parseCacheFilename` (disk_cache.go lines 1022-1039): strip `.cache`,
split at the last underscore, parse the timestamp, return
`(hash, time.Unix(timestamp, 0))`. -/
def parseCacheFilename (filename : Str) : Option (Str × GoTime) :=
  let name := strTrimSuf filename ".cache".data
  match lastIdxChar name '_' with
  | none => none
  | some lastUnderscore =>
    let hash := name.take lastUnderscore
    let timestampStr := name.drop (lastUnderscore + 1)
    match parseInt64 timestampStr with
    | none => none
    | some timestamp => some (hash, ⟨timestamp, 0⟩)

/-! ## Disk cache LRU index state machine (`disk_cache.go`, current version)

The in-memory side of `DiskCache` — the `simplelru.LRU` index (ordered
oldest-first, unique keys, eviction callback wired in `initLRU`), the
atomic `currentSize`, the `cleanupPos` cursor and the delete queue — is
embedded as explicit state.  File-system outcomes that the code observes
(write failures, missing files, the startup walk) enter as operation
parameters.  The delete queue is a bounded channel whose overflow falls
back to an inline unlink; either way the path leaves the index and is
unlinked, so the queue is modelled unbounded.  `getHash` is
`hex(blake3.Sum256(key))` from the external `lukechampine.com/blake3`
library; the index invariants hold for every hash function, so it is a
parameter. -/

/-- A `cacheEntry` of the LRU index. -/
structure CacheEntry where
  hash : Str
  path : Str
  size : Int
  expiresAt : GoTime
deriving Repr, DecidableEq

/-- The state of one `DiskCache`.  `entries` is the LRU index, oldest
first (the order `simplelru.Keys()` reports). -/
structure DCState where
  basePath : Str
  maxSize : Int
  ttl : Int
  maxItems : Nat
  entries : List (Str × CacheEntry)
  currentSize : Int
  cleanupPos : Nat
  deleteQueue : List Str
deriving Repr, DecidableEq

/-- `simplelru.Peek`. -/
def lruPeek (entries : List (Str × CacheEntry)) (h : Str) : Option CacheEntry :=
  (entries.find? (·.1 == h)).map (·.2)

/-- The eviction callback registered in `initLRU`: subtract the entry's
size from `currentSize` and enqueue its path for deletion. -/
def onEvict (dc : DCState) (e : CacheEntry) : DCState :=
  { dc with currentSize := dc.currentSize - e.size,
            deleteQueue := dc.deleteQueue ++ [e.path] }

/-- `simplelru.Remove` plus the eviction callback. -/
def lruRemove (dc : DCState) (h : Str) : DCState :=
  match dc.entries.find? (·.1 == h) with
  | none => dc
  | some kv => onEvict { dc with entries := dc.entries.eraseP (·.1 == h) } kv.2

/-- `simplelru.RemoveOldest` plus the eviction callback. -/
def lruRemoveOldest (dc : DCState) : DCState × Bool :=
  match dc.entries with
  | [] => (dc, false)
  | kv :: rest => (onEvict { dc with entries := rest } kv.2, true)

/-- `simplelru.Add`: existing keys are updated and moved to the recent
end with no callback; new keys are appended, evicting the oldest (with
callback) when the capacity is exceeded. -/
def lruAdd (dc : DCState) (h : Str) (e : CacheEntry) : DCState :=
  if (dc.entries.find? (·.1 == h)).isSome then
    { dc with entries := dc.entries.eraseP (·.1 == h) ++ [(h, e)] }
  else
    let dc1 := { dc with entries := dc.entries ++ [(h, e)] }
    if dc1.maxItems < dc1.entries.length then (lruRemoveOldest dc1).1 else dc1

/-- `simplelru.Get`: like `Peek` but marks the entry most recently used. -/
def lruGetMove (dc : DCState) (h : Str) : DCState × Option CacheEntry :=
  match dc.entries.find? (·.1 == h) with
  | none => (dc, none)
  | some kv =>
    ({ dc with entries := dc.entries.eraseP (·.1 == h) ++ [kv] }, some kv.2)

/-- `sizeWatermarks` (disk_cache.go lines 955-974). -/
def sizeWatermarks (maxSize : Int) : Int × Int :=
  if maxSize ≤ 0 then (0, 0)
  else
    let high := maxSize * 95 / 100
    let low := maxSize * 85 / 100
    let high := if high ≤ 0 then maxSize else high
    let low :=
      if low ≤ 0 ∨ high ≤ low then
        let l := high * 9 / 10
        if l ≤ 0 then high else l
      else low
    (high, low)

/-- The `for currentSize > low` loop of `evictForSizeLocked`, with fuel.
Each iteration removes one entry, so `fuel = entries.length` at the call
site makes the fuel bound unreachable: the loop always exits through one
of its own three break conditions first. -/
def evictLoop (low maxRemovals : Int) : Nat → DCState → Nat → DCState × Nat
  | 0, dc, removed => (dc, removed)
  | Nat.succ fuel, dc, removed =>
    if low < dc.currentSize then
      if 0 < maxRemovals ∧ maxRemovals ≤ (removed : Int) then (dc, removed)
      else
        match dc.entries with
        | [] => (dc, removed)
        | kv :: rest =>
          evictLoop low maxRemovals fuel
            (onEvict { dc with entries := rest } kv.2) (removed + 1)
    else (dc, removed)

/-- `evictForSizeLocked` (disk_cache.go lines 933-953). -/
def evictForSize (dc : DCState) (maxRemovals : Int) : DCState × Nat :=
  let hl := sizeWatermarks dc.maxSize
  if hl.1 ≤ 0 ∨ dc.currentSize ≤ hl.1 then (dc, 0)
  else evictLoop hl.2 maxRemovals dc.entries.length dc 0

/-- `DiskCache.Set` (disk_cache.go lines 638-678).  `dataLen` is
`len(data)`; `ioFailed` covers the `MkdirAll`/`WriteFile`/`Rename` error
returns, all of which leave the index untouched. -/
def dcSet (getHash : Str → Str) (dc : DCState) (key : Str) (dataLen : Int)
    (now : GoTime) (ioFailed : Bool) : DCState :=
  if ioFailed then dc
  else
    let expiresAt := now.addNanos dc.ttl
    let hash := getHash key
    let dirs := getDirPath hash
    let filePath := dc.basePath ++ '/' :: dirs.1 ++ '/' :: dirs.2 ++ '/' ::
      cacheFileName hash expiresAt
    let entry : CacheEntry := ⟨hash, filePath, dataLen, expiresAt⟩
    let dc := if (lruPeek dc.entries hash).isSome then lruRemove dc hash else dc
    let dc := { dc with currentSize := dc.currentSize + entry.size }
    let dc := lruAdd dc hash entry
    (evictForSize dc 2048).1

/-- `DiskCache.Get` (disk_cache.go lines 596-635).  `fileMissing` is the
`os.IsNotExist` outcome of the file read; the returned flag is a hit. -/
def dcGet (getHash : Str → Str) (dc : DCState) (key : Str) (now : GoTime)
    (fileMissing : Bool) : DCState × Bool :=
  let hash := getHash key
  let moved := lruGetMove dc hash
  match moved.2 with
  | none => (moved.1, false)
  | some entry =>
    if now.after entry.expiresAt then (lruRemove moved.1 hash, false)
    else if fileMissing then
      match lruPeek moved.1.entries hash with
      | some stale =>
        if stale.path == entry.path then (lruRemove moved.1 hash, false)
        else (moved.1, false)
      | none => (moved.1, false)
    else (moved.1, true)

/-- `DiskCache.Delete` (disk_cache.go lines 681-690). -/
def dcDelete (getHash : Str → Str) (dc : DCState) (key : Str) : DCState :=
  lruRemove dc (getHash key)

/-- A `cleanupCandidate`. -/
structure Candidate where
  key : Str
  path : Str
deriving Repr, DecidableEq

/-- The budgeted scan loop of `performCleanup` (first locked section):
collects expired candidates (breaking once 256 are gathered) and, when
requested, up to 256 live candidates for the missing-file check. -/
def cleanupScanLoop (entries : List (Str × CacheEntry)) (keys : List Str)
    (now : GoTime) (checkMissing : Bool) (start keyCount : Nat) :
    Nat → Nat → List Candidate × List Candidate → List Candidate × List Candidate
  | _, 0, acc => acc
  | i, Nat.succ fuel, acc =>
    let idx := (start + i) % keyCount
    let key := keys.getD idx []
    match lruPeek entries key with
    | none => cleanupScanLoop entries keys now checkMissing start keyCount
        (i + 1) fuel acc
    | some entry =>
      let candidate : Candidate := ⟨key, entry.path⟩
      if now.after entry.expiresAt then
        let expired := acc.1 ++ [candidate]
        if 256 ≤ expired.length then (expired, acc.2)
        else cleanupScanLoop entries keys now checkMissing start keyCount
          (i + 1) fuel (expired, acc.2)
      else if checkMissing && acc.2.length < 256 then
        cleanupScanLoop entries keys now checkMissing start keyCount
          (i + 1) fuel (acc.1, acc.2 ++ [candidate])
      else cleanupScanLoop entries keys now checkMissing start keyCount
        (i + 1) fuel acc

/-- The candidate-collection and removal phases of `performCleanup`
(disk_cache.go lines 776-860), before the final size eviction.
`fsMissing` is the `os.Stat`-is-not-exist outcome per path.  Returns the
state and the number of removed entries. -/
def dcCleanupPrep (dc : DCState) (now : GoTime) (checkMissing : Bool)
    (fsMissing : Str → Bool) : DCState × Nat :=
  let keys := dc.entries.map (·.1)
  let keyCount := keys.length
  let scanRes :=
    if 0 < keyCount then
      let start := dc.cleanupPos % keyCount
      let scanCount := min 1024 keyCount
      (cleanupScanLoop dc.entries keys now checkMissing start keyCount 0 scanCount
        ([], []), (start + scanCount) % keyCount)
    else (([], []), 0)
  let dc := { dc with cleanupPos := scanRes.2 }
  let missingC :=
    if checkMissing then (scanRes.1.2.filter fun c => fsMissing c.path).take 256
    else []
  let step1 := scanRes.1.1.foldl
    (fun (acc : DCState × Nat) candidate =>
      match lruPeek acc.1.entries candidate.key with
      | none => acc
      | some entry =>
        if entry.path == candidate.path && now.after entry.expiresAt then
          (lruRemove acc.1 candidate.key, acc.2 + 1)
        else acc)
    (dc, 0)
  missingC.foldl
    (fun (acc : DCState × Nat) candidate =>
      match lruPeek acc.1.entries candidate.key with
      | none => acc
      | some entry =>
        if entry.path == candidate.path then (lruRemove acc.1 candidate.key, acc.2 + 1)
        else acc)
    step1

/-- `performCleanup` (disk_cache.go lines 776-873): the removal phases
followed by `evictForSizeLocked(1024)`. -/
def dcPerformCleanup (dc : DCState) (now : GoTime) (checkMissing : Bool)
    (fsMissing : Str → Bool) : DCState × Nat :=
  let p := dcCleanupPrep dc now checkMissing fsMissing
  let ev := evictForSize p.1 1024
  (ev.1, p.2 + ev.2)

/-- One file visited by the `filepath.Walk` in `loadIndexFromDisk`
(directories are skipped by the walk callback; `base` is
`filepath.Base(path)`). -/
structure WalkFile where
  path : Str
  base : Str
  size : Int
deriving Repr, DecidableEq

/-- One step of `loadIndexFromDisk` (disk_cache.go lines 875-916):
non-`.cache` files are skipped; unparseable or expired files are unlinked
without touching the index; surviving files are summed into `currentSize`
and added to the LRU. -/
def dcLoadStep (now : GoTime) (dc : DCState) (f : WalkFile) : DCState :=
  if !strHasSuf f.path ".cache".data then dc
  else
    match parseCacheFilename f.base with
    | none => dc
    | some pe =>
      if now.after pe.2 then dc
      else
        let entry : CacheEntry := ⟨pe.1, f.path, f.size, pe.2⟩
        let dc := { dc with currentSize := dc.currentSize + entry.size }
        let dc := lruAdd dc pe.1 entry
        (evictForSize dc 2048).1

/-- A fresh index as produced by `NewDiskCache` + `loadIndexFromDisk`:
start empty (`maxItems <= 0` defaults to 100000) and fold the startup walk.
An empty walk gives the empty index (the `clearOnStartup` path). -/
def dcLoad (basePath : Str) (maxSize ttl : Int) (maxItems : Nat)
    (walk : List WalkFile) (now : GoTime) : DCState :=
  let mi := if maxItems = 0 then 100000 else maxItems
  walk.foldl (dcLoadStep now) ⟨basePath, maxSize, ttl, mi, [], 0, 0, []⟩

/-- The hash that `dcLoadStep` would admit for a walk file, if any:
used to state the distinct-hash hypothesis on startup walks. -/
def walkKeptHash (now : GoTime) (f : WalkFile) : Option Str :=
  if !strHasSuf f.path ".cache".data then none
  else
    match parseCacheFilename f.base with
    | none => none
    | some pe => if now.after pe.2 then none else some pe.1

/-- The index-mutating operations of claim C7. -/
inductive DCOp where
  | set (key : Str) (dataLen : Int) (now : GoTime) (ioFailed : Bool)
  | get (key : Str) (now : GoTime) (fileMissing : Bool)
  | del (key : Str)
  | cleanup (now : GoTime) (checkMissing : Bool) (fsMissing : Str → Bool)

/-- Apply one operation to the disk cache state. -/
def dcStep (getHash : Str → Str) (dc : DCState) : DCOp → DCState
  | .set key n now fail => dcSet getHash dc key n now fail
  | .get key now miss => (dcGet getHash dc key now miss).1
  | .del key => dcDelete getHash dc key
  | .cleanup now chk missing => (dcPerformCleanup dc now chk missing).1

/-- Run a sequence of operations. -/
def dcRun (getHash : Str → Str) (dc : DCState) (ops : List DCOp) : DCState :=
  ops.foldl (dcStep getHash) dc

/-- Sum of the tracked entry sizes. -/
def sumSizes (entries : List (Str × CacheEntry)) : Int :=
  (entries.map fun kv => kv.2.size).sum

/-- The C7 index integrity invariant, together with the key uniqueness
that the backing map of `simplelru` guarantees by construction. -/
def dcInv (dc : DCState) : Prop :=
  dc.currentSize = sumSizes dc.entries ∧ (dc.entries.map Prod.fst).Nodup

/-! ## Cached storage, thumbnail tiers (`internal/storage/cached.go`)

`SetThumbnail` writes the memory tier synchronously; `GetThumbnail` checks
memory, then disk, promoting disk hits into memory.  The memory tier is
ristretto, an external dependency; following the spec's memory-cache
contract (§4.4), its admission control "may reject" a write and "callers
must not rely on `set` succeeding", so `Set` takes an `admitted` oracle.
TTL is enforced on read. -/

/-- Modelled from the spec: the memory cache contract of §4.4 (the
ristretto-backed `MemoryCache` of the cache package; ristretto itself is
outside the repository).  Bounded key→bytes store with TTL; admission may
reject a write. -/
structure MemCache where
  entries : List (Str × (List Nat × GoTime))
deriving Repr, DecidableEq

/-- `MemoryCache.Get`: TTL enforced on read. -/
def memGet (mc : MemCache) (key : Str) (now : GoTime) : Option (List Nat) :=
  match mc.entries.find? (·.1 == key) with
  | none => none
  | some kv => if now.after kv.2.2 then none else some kv.2.1

/-- `MemoryCache.Set` with TTL: applied when admitted, dropped when not. -/
def memSet (mc : MemCache) (key : Str) (data : List Nat) (ttl : Int)
    (now : GoTime) (admitted : Bool) : MemCache :=
  if admitted then
    ⟨(key, (data, now.addNanos ttl)) :: mc.entries.eraseP (·.1 == key)⟩
  else mc

/-- The thumbnail-tier fields of `CachedStorage`. -/
structure CSState where
  thumbMem : Option MemCache
  thumbDisk : Option DCState
  thumbTTL : Int
deriving Repr, DecidableEq

/-- `CachedStorage.ThumbsCacheEnabled`. -/
def thumbsCacheEnabled (cs : CSState) : Bool :=
  cs.thumbMem.isSome || cs.thumbDisk.isSome

/-- `CachedStorage.SetThumbnail` (cached.go lines 209-226): memory only,
synchronous. -/
def setThumbnail (cs : CSState) (cacheKey : Str) (data : List Nat)
    (now : GoTime) (admitted : Bool) : CSState :=
  if !thumbsCacheEnabled cs then cs
  else
    let thumbnailKey := "thumb:".data ++ cacheKey
    match cs.thumbMem with
    | some mc =>
      { cs with thumbMem := some (memSet mc thumbnailKey data cs.thumbTTL now admitted) }
    | none => cs

/-- The disk layer of `GetThumbnail`: on a disk hit, the file's bytes
(`diskData`, read from outside the index model) are promoted into the
memory tier and returned. -/
def getThumbnailDisk (getHash : Str → Str) (cs : CSState) (thumbnailKey : Str)
    (now : GoTime) (fileMissing promoteAdmitted : Bool) (diskData : List Nat) :
    CSState × Option (List Nat) :=
  match cs.thumbDisk with
  | none => (cs, none)
  | some dc =>
    let r := dcGet getHash dc thumbnailKey now fileMissing
    let cs := { cs with thumbDisk := some r.1 }
    if r.2 then
      match cs.thumbMem with
      | some mc =>
        let mc2 := memSet mc thumbnailKey diskData cs.thumbTTL now promoteAdmitted
        ({ cs with thumbMem := some mc2 }, some diskData)
      | none => (cs, some diskData)
    else (cs, none)

/-- `CachedStorage.GetThumbnail` (cached.go lines 173-205). -/
def getThumbnail (getHash : Str → Str) (cs : CSState) (cacheKey : Str)
    (now : GoTime) (fileMissing promoteAdmitted : Bool) (diskData : List Nat) :
    CSState × Option (List Nat) :=
  if !thumbsCacheEnabled cs then (cs, none)
  else
    let thumbnailKey := "thumb:".data ++ cacheKey
    match cs.thumbMem with
    | some mc =>
      match memGet mc thumbnailKey now with
      | some data => (cs, some data)
      | none => getThumbnailDisk getHash cs thumbnailKey now fileMissing
          promoteAdmitted diskData
    | none => getThumbnailDisk getHash cs thumbnailKey now fileMissing
        promoteAdmitted diskData

/-! # Theorems -/

/-! ## Helper lemmas -/

theorem wordBytes_length (x : Nat) : (wordBytes x).length = 4 := rfl

theorem digestBytes_length (st : H8) : (digestBytes st).length = 32 := by
  simp [digestBytes, wordBytes_length]

theorem sha256_length (m : List Nat) : (sha256 m).length = 32 := by
  simp [sha256, digestBytes_length]

theorem hexEncode_length (bs : List Nat) : (hexEncode bs).length = 2 * bs.length := by
  induction bs with
  | nil => rfl
  | cons b t ih => simp only [hexEncode, List.flatMap_cons] at *; simp at *; omega

theorem hmacSHA256_length (k m : List Nat) : (hmacSHA256 k m).length = 32 := by
  simp [hmacSHA256, sha256_length]

theorem specExpectedSig_length (secret payload : Str) :
    (specExpectedSig secret payload).length = 16 := by
  simp [specExpectedSig, List.length_take, hexEncode_length, hmacSHA256_length]

theorem specExpectedSig_ne_nil (secret payload : Str) :
    specExpectedSig secret payload ≠ [] := by
  intro h
  have := congrArg List.length h
  rw [specExpectedSig_length] at this
  simp at this

theorem signPayloadPath_of_slash (secret p : Str) (h : p.head? = some '/') :
    signPayloadPath secret p = specExpectedSig secret p := by
  have hne : p.isEmpty = false := by
    cases p with
    | nil => simp at h
    | cons a t => simp
  simp [signPayloadPath, specExpectedSig, hne, h]

/-! ## C1: signature verification versus the HMAC equation -/

/-- C1, as stated, is false: with an empty secret and an empty provided
signature `Verify` succeeds, while the spec's expected signature
`hex(HMAC_SHA256(secret, payload))[:16]` is a 16-character string, never
empty.  Concrete input: secret `""`, provided signature `""`, payload
`"/a"`. -/
theorem signature_verify_hmac_iff_fails_empty_secret :
    sigVerify [] ⟨[], ['/', 'a']⟩ = none ∧
      ¬ (([] : Str) = specExpectedSig [] ['/', 'a']) := by
  refine ⟨by decide, fun h => specExpectedSig_ne_nil [] ['/', 'a'] h.symm⟩

/-- C1 (amended): when the secret is non-empty and the plan's
`signature_payload` is non-empty and starts with `'/'` (as every
parser-produced payload does), `Verify` returns OK iff the provided
signature equals the first 16 hex characters of
`HMAC_SHA256(secret, signature_payload)`.  When the secret is empty,
`Verify` instead returns OK iff the provided signature is empty,
regardless of the HMAC. -/
theorem signature_verify_hmac_iff (secret : Str) (req : Request) :
    (secret = [] → (sigVerify secret req = none ↔ req.providedSignature = [])) ∧
    (secret ≠ [] → req.signaturePayload ≠ [] →
      req.signaturePayload.head? = some '/' →
      (sigVerify secret req = none ↔
        req.providedSignature = specExpectedSig secret req.signaturePayload)) := by
  constructor
  · intro h
    subst h
    simp [sigVerify, sigIsEnabled, List.isEmpty_iff]
  · intro hs hp hhead
    have henab : sigIsEnabled secret = true := by
      simp [sigIsEnabled, List.isEmpty_iff, hs]
    have hexp := signPayloadPath_of_slash secret req.signaturePayload hhead
    by_cases hps : req.providedSignature = []
    · have : sigVerify secret req = some .sigRequired := by
        simp [sigVerify, henab, hps]
      rw [this]
      constructor
      · intro h; cases h
      · intro h
        rw [hps] at h
        exact absurd h.symm (specExpectedSig_ne_nil secret req.signaturePayload)
    · have hpse : req.providedSignature.isEmpty = false := by
        simp [List.isEmpty_iff, hps]
      have hpayl : req.signaturePayload.isEmpty = false := by
        simp [List.isEmpty_iff, hp]
      by_cases heq : req.providedSignature = specExpectedSig secret req.signaturePayload
      · simp [sigVerify, henab, hpse, hpayl, hexp, heq]
        exact specExpectedSig_ne_nil secret req.signaturePayload
      · simp [sigVerify, henab, hpse, hpayl, hexp, heq]

/-- Witness for C1 (amended) at secret `"k"`, provided signature `""`,
payload `"/a"`. -/
theorem signature_verify_hmac_iff_witness :
    sigVerify ['k'] ⟨[], ['/', 'a']⟩ = none ↔
      ([] : Str) = specExpectedSig ['k'] ['/', 'a'] :=
  (signature_verify_hmac_iff ['k'] ⟨[], ['/', 'a']⟩).2 (by decide) (by decide)
    (by decide)

/-! ## C2: emptiness cases of signature verification -/

/-- C2: `Verify` fails when exactly one of secret and provided signature is
empty, and succeeds when both are empty. -/
theorem signature_verify_empty_cases (secret : Str) (req : Request) :
    (secret = [] → req.providedSignature ≠ [] → (sigVerify secret req).isSome) ∧
    (secret ≠ [] → req.providedSignature = [] → (sigVerify secret req).isSome) ∧
    (secret = [] → req.providedSignature = [] → sigVerify secret req = none) := by
  refine ⟨fun hs hp => ?_, fun hs hp => ?_, fun hs hp => ?_⟩
  · simp [sigVerify, sigIsEnabled, hs, List.isEmpty_iff, hp]
  · simp [sigVerify, sigIsEnabled, List.isEmpty_iff, hs, hp]
  · simp [sigVerify, sigIsEnabled, hs, List.isEmpty_iff, hp]

/-- Witness for C2 at secrets `""`/`"k"` and provided signatures
`"ab"`/`""`. -/
theorem signature_verify_empty_cases_witness :
    (sigVerify [] ⟨['a', 'b'], ['/', 'p']⟩).isSome ∧
    (sigVerify ['k'] ⟨[], ['/', 'p']⟩).isSome ∧
    sigVerify [] ⟨[], ['/', 'p']⟩ = none :=
  ⟨(signature_verify_empty_cases [] ⟨['a', 'b'], ['/', 'p']⟩).1 rfl (by decide),
   (signature_verify_empty_cases ['k'] ⟨[], ['/', 'p']⟩).2.1 (by decide) rfl,
   (signature_verify_empty_cases [] ⟨[], ['/', 'p']⟩).2.2 rfl rfl⟩

/-! ## C5: the format filter enumeration -/

theorem strHasPre_append (pre rest : Str) : strHasPre (pre ++ rest) pre = true := by
  induction pre with
  | nil => simp [strHasPre]
  | cons p ps ih => simp [strHasPre, ih]

theorem strHasSuf_append_single (xs : Str) (c : Char) :
    strHasSuf (xs ++ [c]) [c] = true := by
  simp [strHasSuf, strHasPre]

/-- C5, as stated, is false on the shipped `FormatOperation.Parse`:
`format(jpg)` is accepted although `jpg` is not one of the four enumerated
names, and `format(avif)` is rejected although the claim requires it to be
accepted. -/
theorem format_filter_enumeration_fails :
    formatParse "format(jpg)".data = .handled "jpg".data ∧
    formatParse "format(avif)".data = .unsupported := by
  constructor <;> decide

/-- C5 (amended): the shipped `FormatOperation.Parse` accepts exactly the
enumeration `jpeg, png, webp, jpg` (case-insensitively, after trimming
ASCII space): for every argument `f`, parsing the token `format(f)`
succeeds iff the lowercased trimmed argument is one of those four, and the
stored format is that lowercased trimmed argument.  In particular
`format(avif)` is rejected. -/
theorem format_filter_enumeration (f : Str) :
    ((∃ g, formatParse ("format(".data ++ f ++ [')']) = .handled g) ↔
      strToLower (strTrimSpace f) ∈
        ["webp".data, "jpeg".data, "png".data, "jpg".data]) ∧
    (∀ g, formatParse ("format(".data ++ f ++ [')']) = .handled g →
      g = strToLower (strTrimSpace f)) := by
  have hpre : strHasPre ("format(".data ++ f ++ [')']) "format(".data = true := by
    rw [List.append_assoc]
    exact strHasPre_append _ _
  have hsuf : strHasSuf ("format(".data ++ f ++ [')']) ")".data = true :=
    strHasSuf_append_single _ _
  have hdrop : ("format(".data ++ f ++ [')']).drop 7 = f ++ [')'] := by
    rw [List.append_assoc]
    exact List.drop_left "format(".data _
  have hlen : ("format(".data ++ f ++ [')']).length - 1 - 7 = f.length := by
    simp
  have hcontent : (("format(".data ++ f ++ [')']).drop 7).take
      (("format(".data ++ f ++ [')']).length - 1 - 7) = f := by
    rw [hdrop, hlen]
    exact List.take_left f _
  unfold formatParse
  rw [hpre, hsuf, hcontent]
  by_cases hempty : (strTrimSpace f).isEmpty
  · have hnil : strTrimSpace f = [] := by simpa [List.isEmpty_iff] using hempty
    simp [hempty, hnil, strToLower]
  · by_cases hc : strToLower (strTrimSpace f) = "webp".data ∨
        strToLower (strTrimSpace f) = "jpeg".data ∨
        strToLower (strTrimSpace f) = "png".data ∨
        strToLower (strTrimSpace f) = "jpg".data
    · simp [hempty, hc]
      try tauto
    · simp [hempty, hc]
      try tauto

/-- Witness for C5 (amended) at `f = "WebP"`, with the stored-format
conclusion discharged at `g = "webp"`. -/
theorem format_filter_enumeration_witness :
    ((∃ g, formatParse ("format(".data ++ "WebP".data ++ [')']) = .handled g) ↔
      strToLower (strTrimSpace "WebP".data) ∈
        ["webp".data, "jpeg".data, "png".data, "jpg".data]) ∧
    "webp".data = strToLower (strTrimSpace "WebP".data) :=
  ⟨(format_filter_enumeration "WebP".data).1,
   (format_filter_enumeration "WebP".data).2 "webp".data (by decide)⟩

/-! ## C6: single-dimension resize -/

/-- C6, as stated, is false: a width-only resize to 200 of a 100×50 source
upscales to 200×100 instead of keeping the source dimensions. -/
theorem resize_one_dimension_fails_upscale :
    resizeApply ⟨some 200, none, "cover".data, "white".data⟩ ⟨100, 50⟩ =
      .ok ⟨200, 100⟩ ∧ (Img.mk 200 100 ≠ Img.mk 100 50) := by
  constructor
  · show resizeWidthOnly ⟨100, 50⟩ 200 = .ok ⟨200, 100⟩
    unfold resizeWidthOnly vipsResize
    norm_num
  · intro h
    cases h

/-- C6 (amended): a resize with exactly one dimension specified scales
both dimensions by `requested / current` — preserving the aspect ratio
and producing exactly the requested dimension, upscaling as well as
downscaling.  The output equals the source only when the requested
dimension equals the source's. -/
theorem resize_one_dimension_scales (o : ResizeOp) (img : Img) (n : Int) :
    (o.width = some n → o.height = none → 0 < img.width →
      ∃ out, resizeApply o img = .ok out ∧ out.width = (n : ℚ) ∧
        out.width * img.height = out.height * img.width) ∧
    (o.width = none → o.height = some n → 0 < img.height →
      ∃ out, resizeApply o img = .ok out ∧ out.height = (n : ℚ) ∧
        out.width * img.height = out.height * img.width) := by
  constructor
  · intro hw hh hpos
    have hne : img.width ≠ 0 := ne_of_gt hpos
    have happ : resizeApply o img = resizeWidthOnly img n := by
      unfold resizeApply
      rw [hw, hh]
    rw [happ]
    simp only [resizeWidthOnly]
    rw [if_neg (not_le.mpr hpos)]
    by_cases heq : (n : ℚ) = img.width
    · rw [if_pos heq]
      exact ⟨img, rfl, heq.symm ▸ rfl, by ring⟩
    · rw [if_neg heq]
      refine ⟨_, rfl, ?_, ?_⟩
      · show img.width * ((n : ℚ) / img.width) = (n : ℚ)
        field_simp
      · show img.width * ((n : ℚ) / img.width) * img.height =
          img.height * ((n : ℚ) / img.width) * img.width
        ring
  · intro hw hh hpos
    have hne : img.height ≠ 0 := ne_of_gt hpos
    have happ : resizeApply o img = resizeHeightOnly img n := by
      unfold resizeApply
      rw [hw, hh]
    rw [happ]
    simp only [resizeHeightOnly]
    rw [if_neg (not_le.mpr hpos)]
    by_cases heq : (n : ℚ) = img.height
    · rw [if_pos heq]
      exact ⟨img, rfl, heq.symm ▸ rfl, by ring⟩
    · rw [if_neg heq]
      refine ⟨_, rfl, ?_, ?_⟩
      · show img.height * ((n : ℚ) / img.height) = (n : ℚ)
        field_simp
      · show img.width * ((n : ℚ) / img.height) * img.height =
          img.height * ((n : ℚ) / img.height) * img.width
        ring

/-- Witness for C6 (amended) at a width-only resize of a 100×50 source to
width 200. -/
theorem resize_one_dimension_scales_witness :
    ∃ out, resizeApply ⟨some 200, none, "cover".data, "white".data⟩ ⟨100, 50⟩ =
      .ok out ∧ out.width = ((200 : Int) : ℚ) ∧
      out.width * (50 : ℚ) = out.height * (100 : ℚ) :=
  (resize_one_dimension_scales ⟨some 200, none, "cover".data, "white".data⟩
    ⟨100, 50⟩ 200).1 rfl rfl (by norm_num)

/-! ## C3: the signature/size disambiguation rule -/

/-- C3, as stated, is false: the second segment `axa` contains an `x` but
fails the size regex, so the claim requires it to be treated as the
signature, yet `ParseURL` takes the no-signature branch (and the size
parser then fails on it, as the conjoined parse result shows). -/
theorem url_disambiguation_regex_fails :
    parseURLSigSplit "/thumbs/axa/100x100/img.jpg".data = .ok ⟨false, [], 1⟩ ∧
    specSizeRegex "axa".data = false ∧
    parseSize "axa".data = .error (.badWidth .notNumeric) := by
  refine ⟨by decide, by decide, by decide⟩


/-- C3 (amended): for every path that passes the grammar-prefix checks,
the second segment is treated as the signature iff it contains no `x`
(the code tests only `x`-membership, not the full size regex); the
signature branch records that segment as the provided signature and reads
the size from the third segment, the no-signature branch reads the size
from the second. -/
theorem url_second_segment_signature_iff (path : Str) (r : SigSplit)
    (h : parseURLSigSplit path = .ok r) :
    (r.hasSig = true ↔
      strContains ((splitNChar '/' 5 (strTrimPre path "/".data)).getD 1 []) 'x' =
        false) ∧
    (r.hasSig = true →
      r.sig = (splitNChar '/' 5 (strTrimPre path "/".data)).getD 1 [] ∧
      r.sizeIndex = 2) ∧
    (r.hasSig = false → r.sig = [] ∧ r.sizeIndex = 1) := by
  unfold parseURLSigSplit at h
  dsimp only at h
  split at h
  · cases h
  · split at h
    · cases h
    · split at h
      · rename_i hsz
        split at h
        · cases h
        · split at h
          · cases h
          · cases h
            simp only [Bool.not_eq_true'] at hsz
            simp only [isSizeFormat] at hsz
            exact ⟨iff_of_true rfl hsz, fun _ => ⟨rfl, rfl⟩,
              fun hh => Bool.noConfusion hh⟩
      · rename_i hsz
        cases h
        simp only [Bool.not_eq_true', Bool.not_eq_false] at hsz
        simp only [isSizeFormat] at hsz
        refine ⟨iff_of_false (fun hh => Bool.noConfusion hh) ?_,
          fun hh => Bool.noConfusion hh, fun _ => ⟨rfl, rfl⟩⟩
        rw [hsz]
        exact fun hh => Bool.noConfusion hh

/-- Witness for C3 (amended) at a signed URL path with an 8-hex-char
signature segment. -/
theorem url_second_segment_signature_iff_witness :
    ((true : Bool) = true ↔
      strContains
        ((splitNChar '/' 5
          (strTrimPre "/thumbs/abcdef12/10x10/img.jpg".data "/".data)).getD 1 [])
        'x' = false) ∧
    ((SigSplit.mk true "abcdef12".data 2).sig =
        (splitNChar '/' 5
          (strTrimPre "/thumbs/abcdef12/10x10/img.jpg".data "/".data)).getD 1 [] ∧
      (SigSplit.mk true "abcdef12".data 2).sizeIndex = 2) :=
  ⟨(url_second_segment_signature_iff "/thumbs/abcdef12/10x10/img.jpg".data
      ⟨true, "abcdef12".data, 2⟩ (by decide)).1,
   (url_second_segment_signature_iff "/thumbs/abcdef12/10x10/img.jpg".data
      ⟨true, "abcdef12".data, 2⟩ (by decide)).2.1 rfl⟩

/-! ## C4: size parsing boundary behaviour -/

theorem wrap64_eq (x : Int) (h0 : 0 ≤ x) (h1 : x < 9223372036854775808) :
    wrap64 x = x := by
  unfold wrap64 int64Mod
  omega

theorem decFold_ge (cs : Str) : ∀ a : Nat, a ≤ decFold a cs := by
  induction cs with
  | nil => intro a; exact Nat.le_refl a
  | cons c t ih =>
    intro a
    calc a ≤ a * 10 + (c.toNat - 48) := by omega
    _ ≤ decFold (a * 10 + (c.toNat - 48)) t := ih _

theorem parseFold_eq_decFold (cs : Str) : ∀ a : Nat,
    (∀ c ∈ cs, 48 ≤ c.toNat) →
    decFold a cs < 9223372036854775808 →
    cs.foldl (fun num c => wrap64 (num * 10 + ((c.toNat : Int) - 48))) (a : Int) =
      (decFold a cs : Int) := by
  induction cs with
  | nil => intro a _ _; rfl
  | cons c t ih =>
    intro a hd hbound
    have hc48 : 48 ≤ c.toNat := hd c (List.mem_cons_self c t)
    have hstep : (a : Int) * 10 + ((c.toNat : Int) - 48) =
        ((a * 10 + (c.toNat - 48) : Nat) : Int) := by omega
    have hbound2 : decFold (a * 10 + (c.toNat - 48)) t < 9223372036854775808 := hbound
    have hsmall : ((a * 10 + (c.toNat - 48) : Nat) : Int) < 9223372036854775808 := by
      have := decFold_ge t (a * 10 + (c.toNat - 48))
      omega
    show List.foldl _ (wrap64 ((a : Int) * 10 + ((c.toNat : Int) - 48))) t = _
    rw [hstep, wrap64_eq _ (by positivity) hsmall]
    exact ih _ (fun e he => hd e (List.mem_cons_of_mem c he)) hbound2

theorem decFold_map_digits (L : List Nat) : ∀ a : Nat, (∀ d ∈ L, d < 10) →
    decFold a (L.map fun d => Char.ofNat (48 + d)) =
      L.foldl (fun acc d => acc * 10 + d) a := by
  induction L with
  | nil => intro a _; rfl
  | cons d T ih =>
    intro a hL
    have hd : d < 10 := hL d (List.mem_cons_self d T)
    have hc : (Char.ofNat (48 + d)).toNat = 48 + d := by
      interval_cases d <;> decide
    show decFold (a * 10 + ((Char.ofNat (48 + d)).toNat - 48)) _ = _
    rw [hc]
    have : 48 + d - 48 = d := by omega
    rw [this]
    exact ih _ fun e he => hL e (List.mem_cons_of_mem d he)

theorem foldl_reverse_digits (L : List Nat) : ∀ a : Nat,
    (L.reverse).foldl (fun acc d => acc * 10 + d) a =
      a * 10 ^ L.length + Nat.ofDigits 10 L := by
  induction L with
  | nil => intro a; simp [Nat.ofDigits]
  | cons d T ih =>
    intro a
    rw [List.reverse_cons, List.foldl_append, ih a]
    simp [Nat.ofDigits_cons, pow_succ]
    ring

theorem decFold_natDecChars (m : Nat) : decFold 0 (natDecChars m) = m := by
  by_cases hm : m = 0
  · subst hm; rfl
  · unfold natDecChars
    rw [if_neg hm]
    rw [decFold_map_digits _ 0 fun d hd =>
      Nat.digits_lt_base (by norm_num) (List.mem_reverse.mp hd)]
    rw [foldl_reverse_digits]
    simp [Nat.ofDigits_digits]

theorem natDecChars_digit_range (m : Nat) :
    ∀ c ∈ natDecChars m, 48 ≤ c.toNat ∧ c.toNat ≤ 57 := by
  intro c hc
  unfold natDecChars at hc
  by_cases hm : m = 0
  · rw [if_pos hm] at hc
    simp at hc
    subst hc
    decide
  · rw [if_neg hm] at hc
    obtain ⟨d, hd, rfl⟩ := List.mem_map.mp hc
    have hd10 : d < 10 := Nat.digits_lt_base (by norm_num) (List.mem_reverse.mp hd)
    interval_cases d <;> decide

theorem natDecChars_ne_nil (m : Nat) : natDecChars m ≠ [] := by
  unfold natDecChars
  by_cases hm : m = 0
  · rw [if_pos hm]; simp
  · rw [if_neg hm]
    simp [Nat.digits_ne_nil_iff_ne_zero, hm]

theorem parsePositiveInt_natDecChars (m : Nat) (h1 : 1 ≤ m)
    (h2 : m < 9223372036854775808) :
    parsePositiveInt (natDecChars m) = .ok (m : Int) := by
  have hne : (natDecChars m).isEmpty = false := by
    simp [List.isEmpty_iff, natDecChars_ne_nil]
  have hall : ((natDecChars m).all fun c => 48 ≤ c.toNat && c.toNat ≤ 57) = true := by
    rw [List.all_eq_true]
    intro c hc
    have := natDecChars_digit_range m c hc
    simp only [Bool.and_eq_true, decide_eq_true_eq]
    omega
  have hfold : (natDecChars m).foldl
      (fun num c => wrap64 (num * 10 + ((c.toNat : Int) - 48))) ((0 : Nat) : Int) =
      ((decFold 0 (natDecChars m) : Nat) : Int) :=
    parseFold_eq_decFold _ 0 (fun c hc => (natDecChars_digit_range m c hc).1)
      (by rw [decFold_natDecChars]; exact h2)
  rw [decFold_natDecChars, Nat.cast_zero] at hfold
  unfold parsePositiveInt
  simp only [hne, hall, Bool.not_true, Bool.false_eq_true, if_false]
  rw [hfold]
  rw [if_neg (by omega : ¬ ((m : Nat) : Int) ≤ 0)]

theorem findIdx_digits_x (w : Str) (hw : ∀ c ∈ w, 48 ≤ c.toNat ∧ c.toNat ≤ 57)
    (rest : Str) : ∀ i : Nat,
    List.findIdx? (· == 'x') (w ++ 'x' :: rest) i = some (i + w.length) := by
  induction w with
  | nil => intro i; simp [List.findIdx?]
  | cons c t ih =>
    intro i
    have hc : (c == 'x') = false := by
      have := hw c (List.mem_cons_self c t)
      have hne : c ≠ 'x' := by
        intro h
        subst h
        revert this
        decide
      simpa using hne
    show List.findIdx? _ (c :: (t ++ 'x' :: rest)) i = _
    rw [List.findIdx?]
    rw [hc]
    simp only [Bool.false_eq_true, if_false]
    rw [ih (fun e he => hw e (List.mem_cons_of_mem c he)) (i + 1)]
    simp
    omega

theorem parseSize_digit_pair (w h : Str) (hw : ∀ c ∈ w, 48 ≤ c.toNat ∧ c.toNat ≤ 57)
    (hwne : w ≠ []) (hhne : h ≠ []) :
    parseSize (w ++ 'x' :: h) =
      match parsePositiveInt w with
      | .error e => .error (.badWidth e)
      | .ok wv =>
        match parsePositiveInt h with
        | .error e => .error (.badHeight e)
        | .ok hv => .ok ⟨some wv, some hv⟩ := by
  unfold parseSize
  rw [findIdx_digits_x w hw h 0]
  simp only [Nat.zero_add]
  have htake : (w ++ 'x' :: h).take w.length = w := List.take_left ..
  have hdrop : (w ++ 'x' :: h).drop (w.length + 1) = h := by
    have hd : (w ++ 'x' :: h).drop (w.length + 1) = ('x' :: h).drop 1 :=
      List.drop_append 1
    simp only [List.drop_succ_cons, List.drop_zero] at hd
    exact hd
  rw [htake, hdrop]
  have hwe : w.isEmpty = false := by simp [List.isEmpty_iff, hwne]
  have hhe : h.isEmpty = false := by simp [List.isEmpty_iff, hhne]
  rw [hwe, hhe]
  simp only [Bool.false_and, Bool.false_eq_true, if_false]
  cases parsePositiveInt w with
  | error e => simp [Except.map]
  | ok wv =>
    cases parsePositiveInt h with
    | error e => simp [Except.map]
    | ok hv => simp [Except.map]

/-- C4, as stated, is false: the size segment `0x0` is rejected by
`ParseSize` (`parsePositiveInt` requires a positive value), while the
claim lists it as valid. -/
theorem size_boundary_zero_rejected :
    parseSize "0x0".data = .error (.badWidth .notPositive) := by decide

/-- C4 (amended): with configured maxima `maxWidth = maxHeight = m ≥ 1`
and `maxResolution ≥ m·m` (the default configuration sets
`maxResolution = maxWidth · maxHeight`), the size segments `x`, `1x`,
`x1` and `{m}x{m}` all parse and validate, a width of `m+1` is rejected
by validation, and `0x0` is rejected by parsing because each given
dimension must be positive. -/
theorem size_boundary_behaviour (m : Nat) (r : Int) (h1 : 1 ≤ m)
    (h2 : (m : Int) * m ≤ r) (h3 : m + 1 < 9223372036854775808) :
    (parseSize "x".data = .ok ⟨none, none⟩ ∧
      resizeValidate m m r ⟨none, none⟩ = none) ∧
    (parseSize "1x".data = .ok ⟨some 1, none⟩ ∧
      resizeValidate m m r ⟨some 1, none⟩ = none) ∧
    (parseSize "x1".data = .ok ⟨none, some 1⟩ ∧
      resizeValidate m m r ⟨none, some 1⟩ = none) ∧
    (parseSize (natDecChars m ++ 'x' :: natDecChars m) =
        .ok ⟨some (m : Int), some (m : Int)⟩ ∧
      resizeValidate m m r ⟨some (m : Int), some (m : Int)⟩ = none) ∧
    resizeValidate m m r ⟨some ((m : Int) + 1), none⟩ = some .widthTooLarge ∧
    parseSize "0x0".data = .error (.badWidth .notPositive) := by
  have hm1 : ¬ ((m : Int) < 1) := by omega
  have hmm : ¬ ((m : Int) < (m : Int)) := by omega
  have hmr : ¬ (r < (m : Int) * (m : Int)) := by omega
  have hm2 : (m : Int) < (m : Int) + 1 := by omega
  refine ⟨⟨by decide, by rfl⟩, ⟨by decide, ?_⟩, ⟨by decide, ?_⟩, ⟨?_, ?_⟩, ?_, by decide⟩
  · simp [resizeValidate, Option.any, hm1]
  · simp [resizeValidate, Option.any, hm1]
  · rw [parseSize_digit_pair _ _ (natDecChars_digit_range m) (natDecChars_ne_nil m)
      (natDecChars_ne_nil m)]
    rw [parsePositiveInt_natDecChars m h1 (by omega)]
  · simp [resizeValidate, Option.any, hmm, hmr]
  · simp [resizeValidate, Option.any, hmm, hm2]

/-- Witness for C4 (amended) at the documented maximum `m = 10000` with
the default `maxResolution = m·m`. -/
theorem size_boundary_behaviour_witness :
    (parseSize "x".data = .ok ⟨none, none⟩ ∧
      resizeValidate 10000 10000 100000000 ⟨none, none⟩ = none) ∧
    (parseSize "1x".data = .ok ⟨some 1, none⟩ ∧
      resizeValidate 10000 10000 100000000 ⟨some 1, none⟩ = none) ∧
    (parseSize "x1".data = .ok ⟨none, some 1⟩ ∧
      resizeValidate 10000 10000 100000000 ⟨none, some 1⟩ = none) ∧
    (parseSize (natDecChars 10000 ++ 'x' :: natDecChars 10000) =
        .ok ⟨some ((10000 : Nat) : Int), some ((10000 : Nat) : Int)⟩ ∧
      resizeValidate 10000 10000 100000000
        ⟨some ((10000 : Nat) : Int), some ((10000 : Nat) : Int)⟩ = none) ∧
    resizeValidate 10000 10000 100000000 ⟨some (((10000 : Nat) : Int) + 1), none⟩ =
      some .widthTooLarge ∧
    parseSize "0x0".data = .error (.badWidth .notPositive) :=
  size_boundary_behaviour 10000 100000000 (by decide) (by norm_num) (by decide)

/-! ## C10: cache filename round-trip -/

theorem findIdx_break (p : Char → Bool) (w : Str) (hw : ∀ c ∈ w, p c = false)
    (c0 : Char) (hc : p c0 = true) (rest : Str) : ∀ i : Nat,
    List.findIdx? p (w ++ c0 :: rest) i = some (i + w.length) := by
  induction w with
  | nil => intro i; simp [List.findIdx?, hc]
  | cons c t ih =>
    intro i
    show List.findIdx? _ (c :: (t ++ c0 :: rest)) i = _
    rw [List.findIdx?]
    rw [hw c (List.mem_cons_self c t)]
    simp only [Bool.false_eq_true, if_false]
    rw [ih (fun e he => hw e (List.mem_cons_of_mem c he)) (i + 1)]
    simp
    omega

theorem strTrimSuf_append (xs suf : Str) : strTrimSuf (xs ++ suf) suf = xs := by
  have hsuf : strHasSuf (xs ++ suf) suf = true := by
    unfold strHasSuf
    rw [List.reverse_append]
    exact strHasPre_append _ _
  unfold strTrimSuf
  rw [hsuf]
  simp only [if_true, List.length_append]
  have : xs.length + suf.length - suf.length = xs.length := by omega
  rw [this]
  exact List.take_left ..

theorem lastIdxChar_break (w ds : Str) (hds : ∀ c ∈ ds, c ≠ '_') :
    lastIdxChar (w ++ '_' :: ds) '_' = some w.length := by
  unfold lastIdxChar
  rw [List.reverse_append, List.reverse_cons]
  rw [List.append_assoc]
  simp only [List.singleton_append]
  rw [findIdx_break (· == '_') ds.reverse
    (fun c hc => by
      have := hds c (List.mem_reverse.mp hc)
      simpa using this)
    '_' (by simp) _ 0]
  simp

theorem intDecChars_char_range (n : Int) :
    ∀ c ∈ intDecChars n, c.toNat = 45 ∨ (48 ≤ c.toNat ∧ c.toNat ≤ 57) := by
  intro c hc
  unfold intDecChars at hc
  by_cases hn : n < 0
  · rw [if_pos hn] at hc
    rcases List.mem_cons.mp hc with h | h
    · subst h; left; decide
    · right; exact natDecChars_digit_range _ c h
  · rw [if_neg hn] at hc
    right; exact natDecChars_digit_range _ c hc

theorem parseInt64_natDecChars_core (k : Nat) :
    (natDecChars k).isEmpty = false ∧
    ((natDecChars k).all fun c => 48 ≤ c.toNat && c.toNat ≤ 57) = true ∧
    (natDecChars k).foldl (fun acc c => acc * 10 + (c.toNat - 48)) 0 = k := by
  refine ⟨by simp [List.isEmpty_iff, natDecChars_ne_nil], ?_, decFold_natDecChars k⟩
  rw [List.all_eq_true]
  intro c hc
  have := natDecChars_digit_range k c hc
  simp only [Bool.and_eq_true, decide_eq_true_eq]
  omega

theorem parseInt64_intDecChars (n : Int) (hlo : -9223372036854775808 ≤ n)
    (hhi : n < 9223372036854775808) :
    parseInt64 (intDecChars n) = some n := by
  by_cases hn : n < 0
  · unfold intDecChars
    rw [if_pos hn]
    obtain ⟨hne, hall, hfold⟩ := parseInt64_natDecChars_core (-n).toNat
    show parseInt64 ('-' :: natDecChars (-n).toNat) = some n
    unfold parseInt64
    simp only [hne, hall, hfold, Bool.not_true, Bool.false_eq_true, if_false,
      beq_self_eq_true, Bool.true_or, if_true]
    rw [if_neg (by omega)]
    congr 1
    omega
  · unfold intDecChars
    rw [if_neg hn]
    obtain ⟨hne, hall, hfold⟩ := parseInt64_natDecChars_core n.toNat
    have hhead : ∃ c t, natDecChars n.toNat = c :: t ∧ 48 ≤ c.toNat ∧ c.toNat ≤ 57 := by
      cases hs : natDecChars n.toNat with
      | nil => exact absurd hs (natDecChars_ne_nil _)
      | cons c t =>
        have := natDecChars_digit_range n.toNat c (hs ▸ List.mem_cons_self c t)
        exact ⟨c, t, rfl, this.1, this.2⟩
    obtain ⟨c, t, hs, hc1, hc2⟩ := hhead
    have hcm : (c == '-') = false := by
      have : c ≠ '-' := by intro h; subst h; revert hc1 hc2; decide
      simpa using this
    have hcp : (c == '+') = false := by
      have : c ≠ '+' := by intro h; subst h; revert hc1 hc2; decide
      simpa using this
    rw [hs]
    unfold parseInt64
    simp only [hcm, hcp, Bool.or_self, Bool.false_or, Bool.false_eq_true, if_false]
    rw [← hs]
    simp only [hne, hall, hfold, Bool.not_true, Bool.false_eq_true, if_false]
    rw [if_neg (by omega)]
    congr 1
    omega

/-- C10: parsing the base name generated by `getFilePathWithExpiration`
for a lowercase-hex hash `h` and an expiry `t` recovers exactly `h` and
`t` truncated to whole Unix seconds (`time.Unix(t.Unix(), 0)`). -/
theorem cache_filename_roundtrip (hashStr : Str) (t : GoTime)
    (hhex : ∀ c ∈ hashStr,
      (48 ≤ c.toNat ∧ c.toNat ≤ 57) ∨ (97 ≤ c.toNat ∧ c.toNat ≤ 102))
    (hlo : -9223372036854775808 ≤ t.sec) (hhi : t.sec < 9223372036854775808) :
    parseCacheFilename (cacheFileName hashStr t) = some (hashStr, ⟨t.sec, 0⟩) := by
  have hhu : ∀ c ∈ hashStr, c ≠ '_' := by
    intro c hc heq
    have := hhex c hc
    subst heq
    revert this
    decide
  have hdu : ∀ c ∈ intDecChars t.sec, c ≠ '_' := by
    intro c hc heq
    have := intDecChars_char_range t.sec c hc
    subst heq
    revert this
    decide
  unfold cacheFileName parseCacheFilename
  rw [strTrimSuf_append]
  dsimp only
  rw [lastIdxChar_break hashStr _ hdu]
  dsimp only
  rw [List.take_left]
  have hdrop : (hashStr ++ '_' :: intDecChars t.sec).drop (hashStr.length + 1) =
      intDecChars t.sec := by
    have hd : (hashStr ++ '_' :: intDecChars t.sec).drop (hashStr.length + 1) =
        ('_' :: intDecChars t.sec).drop 1 := List.drop_append 1
    simp only [List.drop_succ_cons, List.drop_zero] at hd
    exact hd
  rw [hdrop]
  rw [parseInt64_intDecChars t.sec hlo hhi]

/-- Witness for C10 at a 64-character hex hash and an expiry with a
non-zero nanosecond component (truncated by `Unix()`). -/
theorem cache_filename_roundtrip_witness :
    parseCacheFilename (cacheFileName
      "9f86d081884c7d659a2feaa0c55ad015a3bf4f1b2b0b822cd15d6c15b0f00a08".data
      ⟨1735689600, 123⟩) =
    some ("9f86d081884c7d659a2feaa0c55ad015a3bf4f1b2b0b822cd15d6c15b0f00a08".data,
      ⟨1735689600, 0⟩) :=
  cache_filename_roundtrip
    "9f86d081884c7d659a2feaa0c55ad015a3bf4f1b2b0b822cd15d6c15b0f00a08".data
    ⟨1735689600, 123⟩ (by decide) (by decide) (by decide)

/-! ## C9: thumbnail cache coherence -/

/-- C9, as stated, is false under the spec's own memory-cache contract:
when the memory tier's admission control rejects the write (spec §4.4,
"callers must not rely on `set` succeeding" — `SetThumbnail` ignores the
`Set` return value), the next `GetThumbnail` misses.  Concrete input: an
enabled empty memory tier, no disk tier, and a rejected write. -/
theorem thumbnail_cache_coherence_fails_admission :
    getThumbnail (fun s => s)
      (setThumbnail ⟨some ⟨[]⟩, none, 1000⟩ "k".data [7] ⟨0, 0⟩ false)
      "k".data ⟨0, 0⟩ false false [] =
    (⟨some ⟨[]⟩, none, 1000⟩, none) := by decide

/-- C9 (amended): if the memory tier is enabled and the memory cache
admits and applies the write, then a `GetThumbnail` issued before the TTL
expires returns exactly the written bytes. -/
theorem thumbnail_cache_coherence_admitted (getHash : Str → Str) (cs : CSState)
    (k : Str) (v : List Nat) (now now2 : GoTime) (fm pa : Bool) (dd : List Nat)
    (hmem : cs.thumbMem.isSome)
    (hfresh : now2.after (now.addNanos cs.thumbTTL) = false) :
    (getThumbnail getHash (setThumbnail cs k v now true) k now2 fm pa dd).2 =
      some v := by
  obtain ⟨mc, hmc⟩ := Option.isSome_iff_exists.mp hmem
  have henab : thumbsCacheEnabled cs = true := by
    simp [thumbsCacheEnabled, hmc]
  have hset : setThumbnail cs k v now true =
      { cs with thumbMem := some (memSet mc ("thumb:".data ++ k) v cs.thumbTTL now true) } := by
    unfold setThumbnail
    rw [henab]
    simp only [Bool.not_true, Bool.false_eq_true, if_false, hmc]
  rw [hset]
  have henab2 : thumbsCacheEnabled
      { cs with thumbMem := some (memSet mc ("thumb:".data ++ k) v cs.thumbTTL now true) } = true := by
    simp [thumbsCacheEnabled]
  unfold getThumbnail
  rw [henab2]
  simp only [Bool.not_true, Bool.false_eq_true, if_false]
  show (match memGet (memSet mc ("thumb:".data ++ k) v cs.thumbTTL now true)
      ("thumb:".data ++ k) now2 with
    | some data => (_, some data)
    | none => _).2 = some v
  unfold memSet memGet
  simp only [if_pos rfl, List.find?]
  rw [beq_self_eq_true]
  simp only [if_pos rfl]
  rw [hfresh]
  simp

/-- Witness for C9 (amended): an admitted write into an enabled empty
memory tier is immediately readable. -/
theorem thumbnail_cache_coherence_admitted_witness :
    (getThumbnail (fun s => s)
      (setThumbnail ⟨some ⟨[]⟩, none, 1000⟩ "k".data [7] ⟨0, 0⟩ true)
      "k".data ⟨0, 0⟩ false false []).2 = some [7] :=
  thumbnail_cache_coherence_admitted (fun s => s) ⟨some ⟨[]⟩, none, 1000⟩
    "k".data [7] ⟨0, 0⟩ ⟨0, 0⟩ false false [] (by decide) (by decide)

/-! ## C7/C8 groundwork: the disk cache index invariant

`dcInv` (size counter equals the tracked sum, keys unique) is shown to be
preserved by every LRU primitive and hence by every `DiskCache`
operation. -/

theorem sumSizes_cons (kv : Str × CacheEntry) (l : List (Str × CacheEntry)) :
    sumSizes (kv :: l) = kv.2.size + sumSizes l := by
  simp [sumSizes]

theorem sumSizes_append_one (l : List (Str × CacheEntry)) (kv : Str × CacheEntry) :
    sumSizes (l ++ [kv]) = sumSizes l + kv.2.size := by
  simp [sumSizes]

theorem sumSizes_eraseP (h : Str) :
    ∀ (l : List (Str × CacheEntry)) (kv : Str × CacheEntry),
    l.find? (·.1 == h) = some kv →
    sumSizes (l.eraseP (·.1 == h)) = sumSizes l - kv.2.size := by
  intro l
  induction l with
  | nil => intro kv hf; cases hf
  | cons a t ih =>
    intro kv hf
    by_cases pa : (a.1 == h) = true
    · rw [List.find?_cons_of_pos (p := fun x : Str × CacheEntry => x.1 == h) t pa] at hf
      cases hf
      rw [List.eraseP_cons_of_pos (p := fun x : Str × CacheEntry => x.1 == h) pa, sumSizes_cons]
      ring
    · have pa' : (a.1 == h) = false := by simpa using pa
      rw [List.find?_cons_of_neg (p := fun x : Str × CacheEntry => x.1 == h) t (by simp [pa'])] at hf
      rw [List.eraseP_cons_of_neg (p := fun x : Str × CacheEntry => x.1 == h) (by simp [pa']), sumSizes_cons, ih kv hf,
        sumSizes_cons]
      ring

theorem keys_nodup_eraseP (p : Str × CacheEntry → Bool)
    (l : List (Str × CacheEntry)) (hnd : (l.map Prod.fst).Nodup) :
    ((l.eraseP p).map Prod.fst).Nodup :=
  hnd.sublist (List.Sublist.map Prod.fst (List.eraseP_sublist l))

theorem not_mem_keys_eraseP (h : Str) :
    ∀ (l : List (Str × CacheEntry)), (l.map Prod.fst).Nodup →
    (l.find? (·.1 == h)).isSome →
    h ∉ ((l.eraseP (·.1 == h)).map Prod.fst) := by
  intro l
  induction l with
  | nil => intro _ hf; simp [List.find?] at hf
  | cons a t ih =>
    intro hnd hf
    by_cases pa : (a.1 == h) = true
    · rw [List.eraseP_cons_of_pos (p := fun x : Str × CacheEntry => x.1 == h) pa]
      have ha : a.1 = h := by simpa using pa
      have hnd2 := hnd
      rw [List.map_cons] at hnd2
      have := (List.nodup_cons.mp hnd2).1
      rw [ha] at this
      exact this
    · have pa' : (a.1 == h) = false := by simpa using pa
      rw [List.eraseP_cons_of_neg (p := fun x : Str × CacheEntry => x.1 == h) (by simp [pa'])]
      simp only [List.map_cons, List.mem_cons]
      rintro (hah | hmem)
      · exact absurd (by simp [hah] : (a.1 == h) = true) (by simp [pa'])
      · have hft : (t.find? (·.1 == h)).isSome := by
          rw [List.find?_cons_of_neg (p := fun x : Str × CacheEntry => x.1 == h) t (by simp [pa'])] at hf
          exact hf
        have hnd2 := hnd
        rw [List.map_cons] at hnd2
        exact ih (List.nodup_cons.mp hnd2).2 hft hmem

theorem find?_isSome_of_mem_keys (h : Str) :
    ∀ l : List (Str × CacheEntry),
    h ∈ l.map Prod.fst → (l.find? (·.1 == h)).isSome := by
  intro l
  induction l with
  | nil => intro hm; simp at hm
  | cons a t ih =>
    intro hm
    by_cases pa : (a.1 == h) = true
    · rw [List.find?_cons_of_pos (p := fun x : Str × CacheEntry => x.1 == h) t pa]; rfl
    · have pa' : (a.1 == h) = false := by simpa using pa
      rw [List.find?_cons_of_neg (p := fun x : Str × CacheEntry => x.1 == h) t (by simp [pa'])]
      apply ih
      rcases List.mem_cons.mp hm with hah | hmem
      · exact absurd (by simp [hah] : (a.1 == h) = true) (by simp [pa'])
      · exact hmem

theorem not_mem_keys_of_find?_none (h : Str) (l : List (Str × CacheEntry))
    (hf : l.find? (·.1 == h) = none) : h ∉ l.map Prod.fst := by
  intro hm
  have := find?_isSome_of_mem_keys h l hm
  rw [hf] at this
  cases this

theorem dcInv_lruRemove (dc : DCState) (h : Str) (hinv : dcInv dc) :
    dcInv (lruRemove dc h) := by
  unfold lruRemove
  cases hf : dc.entries.find? (·.1 == h) with
  | none => exact hinv
  | some kv =>
    refine ⟨?_, ?_⟩
    · show dc.currentSize - kv.2.size = sumSizes (dc.entries.eraseP (·.1 == h))
      rw [sumSizes_eraseP h dc.entries kv hf, hinv.1]
    · exact keys_nodup_eraseP _ dc.entries hinv.2

theorem dcInv_lruRemoveOldest (dc : DCState) (hinv : dcInv dc) :
    dcInv (lruRemoveOldest dc).1 := by
  unfold lruRemoveOldest
  cases he : dc.entries with
  | nil => exact hinv
  | cons kv rest =>
    have h1 := hinv.1
    have h2 := hinv.2
    rw [he] at h1 h2
    refine ⟨?_, ?_⟩
    · show dc.currentSize - kv.2.size = sumSizes rest
      rw [h1, sumSizes_cons]
      ring
    · rw [List.map_cons] at h2
      exact (List.nodup_cons.mp h2).2

theorem find?_eq_some_key (h : Str) (l : List (Str × CacheEntry))
    (kv : Str × CacheEntry) (hf : l.find? (·.1 == h) = some kv) : kv.1 = h := by
  have := List.find?_some hf
  simpa using this

theorem dcInv_lruGetMove (dc : DCState) (h : Str) (hinv : dcInv dc) :
    dcInv (lruGetMove dc h).1 := by
  unfold lruGetMove
  cases hf : dc.entries.find? (·.1 == h) with
  | none => exact hinv
  | some kv =>
    refine ⟨?_, ?_⟩
    · show dc.currentSize = sumSizes (dc.entries.eraseP (·.1 == h) ++ [kv])
      rw [sumSizes_append_one, sumSizes_eraseP h dc.entries kv hf, hinv.1]
      ring
    · show ((dc.entries.eraseP (·.1 == h) ++ [kv]).map Prod.fst).Nodup
      rw [List.map_append]
      refine List.Nodup.append (keys_nodup_eraseP _ dc.entries hinv.2)
        (by simp) ?_
      intro x hx hy
      simp only [List.map_cons, List.map_nil, List.mem_singleton] at hy
      subst hy
      rw [find?_eq_some_key h dc.entries kv hf] at hx
      exact not_mem_keys_eraseP h dc.entries hinv.2 (by rw [hf]; rfl) hx

theorem find?_none_of_not_mem_keys (h : Str) (l : List (Str × CacheEntry))
    (hm : h ∉ l.map Prod.fst) : l.find? (·.1 == h) = none := by
  cases hf : l.find? (·.1 == h) with
  | none => rfl
  | some kv =>
    exfalso
    apply hm
    rw [← find?_eq_some_key h l kv hf]
    exact List.mem_map_of_mem Prod.fst (List.mem_of_find?_eq_some hf)

theorem lruPeek_isSome (entries : List (Str × CacheEntry)) (h : Str) :
    (lruPeek entries h).isSome = (entries.find? (·.1 == h)).isSome := by
  unfold lruPeek
  cases entries.find? (·.1 == h) <;> rfl

theorem dcInv_lruAdd_bump (dc : DCState) (h : Str) (e : CacheEntry)
    (hinv : dcInv dc) (hnf : dc.entries.find? (·.1 == h) = none) :
    dcInv (lruAdd { dc with currentSize := dc.currentSize + e.size } h e) := by
  unfold lruAdd
  simp only [hnf, Option.isSome_none, Bool.false_eq_true, if_false]
  have hbase : dcInv { dc with
      currentSize := dc.currentSize + e.size,
      entries := dc.entries ++ [(h, e)] } := by
    refine ⟨?_, ?_⟩
    · show dc.currentSize + e.size = sumSizes (dc.entries ++ [(h, e)])
      rw [sumSizes_append_one, hinv.1]
    · show ((dc.entries ++ [(h, e)]).map Prod.fst).Nodup
      rw [List.map_append]
      refine List.Nodup.append hinv.2 (by simp) ?_
      intro x hx hy
      simp only [List.map_cons, List.map_nil, List.mem_singleton] at hy
      rw [hy] at hx
      exact not_mem_keys_of_find?_none h dc.entries hnf hx
  split
  · exact dcInv_lruRemoveOldest _ hbase
  · exact hbase

theorem dcInv_evictLoop (low maxR : Int) : ∀ (fuel : Nat) (dc : DCState) (r : Nat),
    dcInv dc → dcInv (evictLoop low maxR fuel dc r).1 := by
  intro fuel
  induction fuel with
  | zero => intro dc r h; exact h
  | succ n ih =>
    intro dc r h
    unfold evictLoop
    split
    · split
      · exact h
      · split
        · exact h
        · rename_i kv rest he
          apply ih
          have hro := dcInv_lruRemoveOldest dc h
          rw [lruRemoveOldest, he] at hro
          exact hro
    · exact h

theorem dcInv_evictForSize (dc : DCState) (m : Int) (h : dcInv dc) :
    dcInv (evictForSize dc m).1 := by
  unfold evictForSize
  dsimp only
  split
  · exact h
  · exact dcInv_evictLoop _ _ _ _ _ h

theorem maxSize_onEvict (dc : DCState) (e : CacheEntry) :
    (onEvict dc e).maxSize = dc.maxSize := rfl

theorem maxSize_lruRemove (dc : DCState) (h : Str) :
    (lruRemove dc h).maxSize = dc.maxSize := by
  unfold lruRemove
  cases dc.entries.find? (·.1 == h) <;> rfl

theorem dcInv_dcSet (getHash : Str → Str) (dc : DCState) (key : Str) (n : Int)
    (now : GoTime) (fail : Bool) (h : dcInv dc) :
    dcInv (dcSet getHash dc key n now fail) := by
  unfold dcSet
  split
  · exact h
  · dsimp only
    apply dcInv_evictForSize
    by_cases hp : (lruPeek dc.entries (getHash key)).isSome = true
    · rw [if_pos hp]
      have hf : (dc.entries.find? (·.1 == getHash key)).isSome := by
        rw [← lruPeek_isSome]; exact hp
      obtain ⟨kv, hkv⟩ := Option.isSome_iff_exists.mp hf
      have h1 := dcInv_lruRemove dc (getHash key) h
      apply dcInv_lruAdd_bump _ _ _ h1
      unfold lruRemove
      rw [hkv]
      apply find?_none_of_not_mem_keys
      exact not_mem_keys_eraseP _ dc.entries h.2 (by rw [hkv]; rfl)
    · rw [if_neg hp]
      apply dcInv_lruAdd_bump _ _ _ h
      cases hf : dc.entries.find? (·.1 == getHash key) with
      | none => rfl
      | some kv =>
        exfalso
        apply hp
        rw [lruPeek_isSome, hf]
        rfl

theorem dcInv_dcGet (getHash : Str → Str) (dc : DCState) (key : Str)
    (now : GoTime) (miss : Bool) (h : dcInv dc) :
    dcInv (dcGet getHash dc key now miss).1 := by
  unfold dcGet
  dsimp only
  have hmv := dcInv_lruGetMove dc (getHash key) h
  split
  · exact hmv
  · split
    · exact dcInv_lruRemove _ _ hmv
    · split
      · split
        · split
          · exact dcInv_lruRemove _ _ hmv
          · exact hmv
        · exact hmv
      · exact hmv

theorem dcInv_dcDelete (getHash : Str → Str) (dc : DCState) (key : Str)
    (h : dcInv dc) : dcInv (dcDelete getHash dc key) :=
  dcInv_lruRemove _ _ h

theorem foldl_pair_inv {β : Type} (P : DCState × Nat → Prop)
    (f : DCState × Nat → β → DCState × Nat)
    (hf : ∀ st c, P st → P (f st c)) :
    ∀ (l : List β) (st : DCState × Nat), P st → P (List.foldl f st l) := by
  intro l
  induction l with
  | nil => intro st h; exact h
  | cons c t ih => intro st h; exact ih _ (hf st c h)

theorem dcCleanupPrep_inv (dc : DCState) (now : GoTime) (chk : Bool)
    (missing : Str → Bool) (h : dcInv dc) :
    dcInv (dcCleanupPrep dc now chk missing).1 ∧
      (dcCleanupPrep dc now chk missing).1.maxSize = dc.maxSize := by
  unfold dcCleanupPrep
  dsimp only
  have key2 : ∀ (st : DCState × Nat) (c : Candidate),
      (dcInv st.1 ∧ st.1.maxSize = dc.maxSize) →
      dcInv ((match lruPeek st.1.entries c.key with
        | none => st
        | some entry =>
          if entry.path == c.path then (lruRemove st.1 c.key, st.2 + 1)
          else st) : DCState × Nat).1 ∧
      ((match lruPeek st.1.entries c.key with
        | none => st
        | some entry =>
          if entry.path == c.path then (lruRemove st.1 c.key, st.2 + 1)
          else st) : DCState × Nat).1.maxSize = dc.maxSize := by
    intro st c hst
    split
    · exact hst
    · split
      · exact ⟨dcInv_lruRemove _ _ hst.1, by rw [maxSize_lruRemove]; exact hst.2⟩
      · exact hst
  have key1 : ∀ (st : DCState × Nat) (c : Candidate),
      (dcInv st.1 ∧ st.1.maxSize = dc.maxSize) →
      dcInv ((match lruPeek st.1.entries c.key with
        | none => st
        | some entry =>
          if entry.path == c.path && now.after entry.expiresAt then
            (lruRemove st.1 c.key, st.2 + 1)
          else st) : DCState × Nat).1 ∧
      ((match lruPeek st.1.entries c.key with
        | none => st
        | some entry =>
          if entry.path == c.path && now.after entry.expiresAt then
            (lruRemove st.1 c.key, st.2 + 1)
          else st) : DCState × Nat).1.maxSize = dc.maxSize := by
    intro st c hst
    split
    · exact hst
    · split
      · exact ⟨dcInv_lruRemove _ _ hst.1, by rw [maxSize_lruRemove]; exact hst.2⟩
      · exact hst
  exact foldl_pair_inv (fun st => dcInv st.1 ∧ st.1.maxSize = dc.maxSize) _ key2 _ _
    (foldl_pair_inv (fun st => dcInv st.1 ∧ st.1.maxSize = dc.maxSize) _ key1 _ _
      ⟨h, rfl⟩)

theorem dcInv_dcPerformCleanup (dc : DCState) (now : GoTime) (chk : Bool)
    (missing : Str → Bool) (h : dcInv dc) :
    dcInv (dcPerformCleanup dc now chk missing).1 := by
  unfold dcPerformCleanup
  dsimp only
  exact dcInv_evictForSize _ _ (dcCleanupPrep_inv dc now chk missing h).1

theorem dcInv_dcStep (getHash : Str → Str) (dc : DCState) (op : DCOp)
    (h : dcInv dc) : dcInv (dcStep getHash dc op) := by
  cases op with
  | set key n now fail => exact dcInv_dcSet getHash dc key n now fail h
  | get key now miss => exact dcInv_dcGet getHash dc key now miss h
  | del key => exact dcInv_dcDelete getHash dc key h
  | cleanup now chk missing => exact dcInv_dcPerformCleanup dc now chk missing h

theorem dcInv_dcRun (getHash : Str → Str) : ∀ (ops : List DCOp) (dc : DCState),
    dcInv dc → dcInv (dcRun getHash dc ops) := by
  intro ops
  induction ops with
  | nil => intro dc h; exact h
  | cons op t ih =>
    intro dc h
    exact ih _ (dcInv_dcStep getHash dc op h)

theorem mem_entries_evictLoop (low maxR : Int) : ∀ (fuel : Nat) (dc : DCState)
    (r : Nat) (x : Str × CacheEntry),
    x ∈ (evictLoop low maxR fuel dc r).1.entries → x ∈ dc.entries := by
  intro fuel
  induction fuel with
  | zero => intro dc r x hx; exact hx
  | succ n ih =>
    intro dc r x hx
    rw [evictLoop] at hx
    split at hx
    · split at hx
      · exact hx
      · split at hx
        · exact hx
        · rename_i kv rest he
          rw [he]
          exact List.mem_cons_of_mem kv (ih _ _ _ hx)
    · exact hx

theorem mem_entries_evictForSize (dc : DCState) (m : Int) (x : Str × CacheEntry)
    (hx : x ∈ (evictForSize dc m).1.entries) : x ∈ dc.entries := by
  rw [evictForSize] at hx
  split at hx
  · exact hx
  · exact mem_entries_evictLoop _ _ _ _ _ _ hx

theorem mem_entries_lruAdd (dc : DCState) (h : Str) (e : CacheEntry)
    (x : Str × CacheEntry) (hx : x ∈ (lruAdd dc h e).entries) :
    x ∈ dc.entries ∨ x = (h, e) := by
  rw [lruAdd] at hx
  split at hx
  · rcases List.mem_append.mp hx with hl | hr
    · exact Or.inl (List.mem_of_mem_eraseP hl)
    · exact Or.inr (List.mem_singleton.mp hr)
  · dsimp only at hx
    split at hx
    · rw [lruRemoveOldest] at hx
      dsimp only at hx
      split at hx
      · rename_i hnil
        exact absurd hnil (by simp)
      · rename_i kv rest he
        dsimp only at hx
        have : x ∈ dc.entries ++ [(h, e)] := by
          rw [he]
          exact List.mem_cons_of_mem kv hx
        rcases List.mem_append.mp this with hl | hr
        · exact Or.inl hl
        · exact Or.inr (List.mem_singleton.mp hr)
    · rcases List.mem_append.mp hx with hl | hr
      · exact Or.inl hl
      · exact Or.inr (List.mem_singleton.mp hr)

theorem dcLoadStep_cases (now : GoTime) (dc : DCState) (f : WalkFile) :
    (walkKeptHash now f = none ∧ dcLoadStep now dc f = dc) ∨
    (∃ pe : Str × GoTime, walkKeptHash now f = some pe.1 ∧
      dcLoadStep now dc f =
        (evictForSize (lruAdd { dc with currentSize :=
            dc.currentSize + (⟨pe.1, f.path, f.size, pe.2⟩ : CacheEntry).size }
          pe.1 ⟨pe.1, f.path, f.size, pe.2⟩) 2048).1) := by
  by_cases h1 : strHasSuf f.path ".cache".data
  · cases hp : parseCacheFilename f.base with
    | none =>
      refine Or.inl ⟨?_, ?_⟩
      · simp [walkKeptHash, h1, hp]
      · simp [dcLoadStep, h1, hp]
    | some pe =>
      by_cases hex : now.after pe.2 = true
      · refine Or.inl ⟨?_, ?_⟩
        · simp [walkKeptHash, h1, hp, hex]
        · simp [dcLoadStep, h1, hp, hex]
      · have hex2 : now.after pe.2 = false := by simpa using hex
        refine Or.inr ⟨pe, ?_, ?_⟩
        · simp [walkKeptHash, h1, hp, hex2]
        · simp [dcLoadStep, h1, hp, hex2]
  · have h1b : strHasSuf f.path ".cache".data = false := by simpa using h1
    refine Or.inl ⟨?_, ?_⟩
    · simp [walkKeptHash, h1b]
    · simp [dcLoadStep, h1b]

theorem dcLoad_fold_inv (now : GoTime) : ∀ (walk : List WalkFile) (dc : DCState),
    dcInv dc →
    (∀ h0 ∈ dc.entries.map Prod.fst, h0 ∉ walk.filterMap (walkKeptHash now)) →
    (walk.filterMap (walkKeptHash now)).Nodup →
    dcInv (List.foldl (dcLoadStep now) dc walk) := by
  intro walk
  induction walk with
  | nil => intro dc h _ _; exact h
  | cons f rest ih =>
    intro dc h hdisj hnd
    show dcInv (List.foldl (dcLoadStep now) (dcLoadStep now dc f) rest)
    rcases dcLoadStep_cases now dc f with ⟨hk, hstep⟩ | ⟨pe, hk, hstep⟩
    · rw [hstep]
      rw [List.filterMap_cons_none hk] at hdisj hnd
      exact ih dc h hdisj hnd
    · rw [List.filterMap_cons_some hk] at hdisj hnd
      have hnotmem : pe.1 ∉ dc.entries.map Prod.fst := by
        intro hmem
        exact hdisj pe.1 hmem (List.mem_cons_self _ _)
      have hnf : dc.entries.find? (·.1 == pe.1) = none :=
        find?_none_of_not_mem_keys pe.1 dc.entries hnotmem
      rw [hstep]
      apply ih
      · exact dcInv_evictForSize _ _
          (dcInv_lruAdd_bump dc pe.1 ⟨pe.1, f.path, f.size, pe.2⟩ h hnf)
      · intro h0 hh0 hh0r
        obtain ⟨x, hxmem, hxfst⟩ := List.mem_map.mp hh0
        have hx2 := mem_entries_evictForSize _ _ _ hxmem
        rcases mem_entries_lruAdd _ _ _ _ hx2 with hold | hnew
        · have : h0 ∈ dc.entries.map Prod.fst := by
            rw [← hxfst]
            exact List.mem_map_of_mem Prod.fst hold
          exact hdisj h0 this (List.mem_cons_of_mem _ hh0r)
        · have hh0pe : h0 = pe.1 := by rw [← hxfst, hnew]
          rw [hh0pe] at hh0r
          exact (List.nodup_cons.mp hnd).1 hh0r
      · exact (List.nodup_cons.mp hnd).2

theorem dcInv_dcLoad (basePath : Str) (maxSize ttl : Int) (maxItems : Nat)
    (walk : List WalkFile) (now : GoTime)
    (hnd : (walk.filterMap (walkKeptHash now)).Nodup) :
    dcInv (dcLoad basePath maxSize ttl maxItems walk now) := by
  unfold dcLoad
  dsimp only
  apply dcLoad_fold_inv now walk _ ?_ ?_ hnd
  · exact ⟨rfl, List.nodup_nil⟩
  · intro h0 hh0
    simp at hh0

/-! ## C7: disk cache index integrity -/

/-- C7, as stated, is false for a freshly loaded index: when the startup
walk encounters two surviving files with the same hash (the same key
written in different seconds, the older file's unlink not yet performed),
`loadIndexFromDisk` adds both sizes to `currentSize` but `simplelru.Add`
replaces the existing entry without firing the eviction callback, so the
counter (30) exceeds the tracked sum (20). -/
theorem disk_index_integrity_fails_duplicate_hash :
    (dcLoad "/c".data 0 1000000000 100
      [⟨"/c/aa_9.cache".data, "aa_9.cache".data, 10⟩,
       ⟨"/c/aa_8.cache".data, "aa_8.cache".data, 20⟩] ⟨0, 0⟩).currentSize = 30 ∧
    sumSizes (dcLoad "/c".data 0 1000000000 100
      [⟨"/c/aa_9.cache".data, "aa_9.cache".data, 10⟩,
       ⟨"/c/aa_8.cache".data, "aa_8.cache".data, 20⟩] ⟨0, 0⟩).entries = 20 ∧
    (30 : Int) ≠ 20 := by
  refine ⟨by decide, by decide, by decide⟩

/-- C7 (amended): starting from an empty index or an index freshly loaded
from a startup walk whose surviving files carry pairwise-distinct hashes,
after every finite sequence of `Set`/`Get`/`Delete`/cleanup operations the
atomic `currentSize` equals the sum of the sizes of the entries tracked in
the LRU index.  (The empty start is the walk `[]`.) -/
theorem disk_index_integrity (getHash : Str → Str) (basePath : Str)
    (maxSize ttl : Int) (maxItems : Nat) (walk : List WalkFile) (now : GoTime)
    (ops : List DCOp)
    (hnd : (walk.filterMap (walkKeptHash now)).Nodup) :
    (dcRun getHash (dcLoad basePath maxSize ttl maxItems walk now) ops).currentSize =
      sumSizes (dcRun getHash (dcLoad basePath maxSize ttl maxItems walk now) ops).entries :=
  (dcInv_dcRun getHash ops _ (dcInv_dcLoad basePath maxSize ttl maxItems walk now hnd)).1

/-- Witness for C7 (amended): a load of one fresh file followed by a set,
a get, a delete and a cleanup pass. -/
theorem disk_index_integrity_witness :
    (dcRun (fun s => s) (dcLoad "/c".data 100 1000000000 100
        [⟨"/c/aa_9.cache".data, "aa_9.cache".data, 10⟩] ⟨0, 0⟩)
      [.set "k".data 5 ⟨0, 0⟩ false, .get "k".data ⟨0, 0⟩ false,
       .del "aa".data, .cleanup ⟨2, 0⟩ false (fun _ => false)]).currentSize =
      sumSizes (dcRun (fun s => s) (dcLoad "/c".data 100 1000000000 100
        [⟨"/c/aa_9.cache".data, "aa_9.cache".data, 10⟩] ⟨0, 0⟩)
      [.set "k".data 5 ⟨0, 0⟩ false, .get "k".data ⟨0, 0⟩ false,
       .del "aa".data, .cleanup ⟨2, 0⟩ false (fun _ => false)]).entries :=
  disk_index_integrity (fun s => s) "/c".data 100 1000000000 100
    [⟨"/c/aa_9.cache".data, "aa_9.cache".data, 10⟩] ⟨0, 0⟩
    [.set "k".data 5 ⟨0, 0⟩ false, .get "k".data ⟨0, 0⟩ false,
     .del "aa".data, .cleanup ⟨2, 0⟩ false (fun _ => false)] (by decide)

/-! ## C8: the cleanup size watermark -/

theorem ediv_nine_tenths_lt (a : Int) (h : 0 < a) : a * 9 / 10 < a := by
  rw [Int.ediv_lt_iff_lt_mul (by norm_num : (0 : Int) < 10)]
  omega

theorem watermark_facts (m : Int) (hm : 0 < m) :
    0 < (sizeWatermarks m).1 ∧ 0 ≤ (sizeWatermarks m).2 ∧
      (sizeWatermarks m).2 ≤ (sizeWatermarks m).1 := by
  unfold sizeWatermarks
  rw [if_neg (not_le.mpr hm)]
  dsimp only
  by_cases hh0 : m * 95 / 100 ≤ 0
  · rw [if_pos hh0]
    by_cases hl0 : m * 85 / 100 ≤ 0 ∨ m ≤ m * 85 / 100
    · rw [if_pos hl0]
      by_cases hl9 : m * 9 / 10 ≤ 0
      · rw [if_pos hl9]
        exact ⟨hm, le_of_lt hm, le_refl m⟩
      · rw [if_neg hl9]
        have := ediv_nine_tenths_lt m hm
        exact ⟨hm, by omega, by omega⟩
    · rw [if_neg hl0]
      push_neg at hl0
      exact ⟨hm, by omega, le_of_lt hl0.2⟩
  · rw [if_neg hh0]
    push_neg at hh0
    by_cases hl0 : m * 85 / 100 ≤ 0 ∨ m * 95 / 100 ≤ m * 85 / 100
    · rw [if_pos hl0]
      by_cases hl9 : m * 95 / 100 * 9 / 10 ≤ 0
      · rw [if_pos hl9]
        exact ⟨hh0, by omega, le_refl _⟩
      · rw [if_neg hl9]
        have := ediv_nine_tenths_lt (m * 95 / 100) hh0
        exact ⟨hh0, by omega, by omega⟩
    · rw [if_neg hl0]
      push_neg at hl0
      exact ⟨hh0, by omega, le_of_lt hl0.2⟩

theorem evictLoop_post (low maxR : Int) (hlow : 0 ≤ low) :
    ∀ (fuel : Nat) (dc : DCState) (r : Nat),
    dcInv dc → dc.entries.length ≤ fuel →
    (evictLoop low maxR fuel dc r).1.currentSize ≤ low ∨
      (0 < maxR ∧ maxR ≤ ((evictLoop low maxR fuel dc r).2 : Int)) := by
  intro fuel
  induction fuel with
  | zero =>
    intro dc r hinv hlen
    have hnil : dc.entries = [] := List.eq_nil_of_length_eq_zero (Nat.le_zero.mp hlen)
    have hcs : dc.currentSize = 0 := by
      rw [hinv.1, hnil]
      rfl
    left
    show ((dc, r) : DCState × Nat).1.currentSize ≤ low
    rw [hcs]
    exact hlow
  | succ n ih =>
    intro dc r hinv hlen
    unfold evictLoop
    split
    · rename_i hgt
      split
      · rename_i hbud
        exact Or.inr ⟨hbud.1, hbud.2⟩
      · split
        · rename_i hemp
          exfalso
          have hcs : dc.currentSize = 0 := by
            rw [hinv.1, hemp]
            rfl
          omega
        · rename_i kv rest he
          apply ih
          · have hro := dcInv_lruRemoveOldest dc hinv
            rw [lruRemoveOldest, he] at hro
            exact hro
          · have hle := congrArg List.length he
            simp only [List.length_cons] at hle
            show rest.length ≤ n
            omega
    · rename_i hng
      left
      show dc.currentSize ≤ low
      omega

theorem evictForSize_post (dc : DCState) (maxR : Int) (hinv : dcInv dc)
    (hm : 0 < dc.maxSize) :
    (evictForSize dc maxR).1.currentSize ≤ (sizeWatermarks dc.maxSize).1 ∨
      (0 < maxR ∧ maxR ≤ ((evictForSize dc maxR).2 : Int)) := by
  obtain ⟨hh, hl0, hlh⟩ := watermark_facts dc.maxSize hm
  unfold evictForSize
  dsimp only
  split
  · rename_i hc
    left
    show dc.currentSize ≤ (sizeWatermarks dc.maxSize).1
    rcases hc with hc | hc
    · omega
    · exact hc
  · rcases evictLoop_post (sizeWatermarks dc.maxSize).2 maxR hl0
      dc.entries.length dc 0 hinv (le_refl _) with h1 | h2
    · exact Or.inl (le_trans h1 hlh)
    · exact Or.inr h2

/-- C8, as stated, is false: with `MaxSize = 1` and a single fresh
one-byte entry, a cleanup pass keeps `currentSize = 1`, which exceeds the
claim's `high = 95% of MaxSize` (integer 95·1/100 = 0; the code's own
`sizeWatermarks` clamps `high` up to `MaxSize` when the percentage rounds
to zero, so no eviction triggers). -/
theorem disk_cleanup_watermark_fails_spec_high :
    (dcPerformCleanup
      ⟨"/c".data, 1, 1000000000, 100,
        [("h".data, ⟨"h".data, "/p".data, 1, ⟨9, 0⟩⟩)], 1, 0, []⟩
      ⟨0, 0⟩ false (fun _ => false)).1.currentSize = 1 ∧
    (1 : Int) * 95 / 100 < 1 := by
  refine ⟨by decide, by decide⟩

/-- C8 (amended): for a state satisfying the index invariant with
`MaxSize > 0`, after a cleanup pass either the tracked `currentSize` is at
most the code's `high` watermark (`⌊95·MaxSize/100⌋`, clamped up to
`MaxSize` when that rounds to zero), or the pass's final size eviction hit
its removal budget of 1024 entries.  Eviction, when triggered, removes
oldest entries until `currentSize ≤ low` or the budget or the index is
exhausted. -/
theorem disk_cleanup_watermark (dc : DCState) (now : GoTime) (chk : Bool)
    (missing : Str → Bool) (hinv : dcInv dc) (hm : 0 < dc.maxSize) :
    (dcPerformCleanup dc now chk missing).1.currentSize ≤
        (sizeWatermarks dc.maxSize).1 ∨
      (1024 : Int) ≤ ((evictForSize (dcCleanupPrep dc now chk missing).1 1024).2 : Int) := by
  obtain ⟨hpi, hpm⟩ := dcCleanupPrep_inv dc now chk missing hinv
  have hm2 : 0 < (dcCleanupPrep dc now chk missing).1.maxSize := by
    rw [hpm]
    exact hm
  have hpost := evictForSize_post (dcCleanupPrep dc now chk missing).1 1024 hpi hm2
  rw [hpm] at hpost
  unfold dcPerformCleanup
  dsimp only
  rcases hpost with h1 | h2
  · exact Or.inl h1
  · exact Or.inr h2.2

/-- Witness for C8 (amended) at a one-entry state with `MaxSize = 1`. -/
theorem disk_cleanup_watermark_witness :
    (dcPerformCleanup
      ⟨"/c".data, 1, 1000000000, 100,
        [("h".data, ⟨"h".data, "/p".data, 1, ⟨9, 0⟩⟩)], 1, 0, []⟩
      ⟨0, 0⟩ false (fun _ => false)).1.currentSize ≤
        (sizeWatermarks (1 : Int)).1 ∨
      (1024 : Int) ≤ ((evictForSize (dcCleanupPrep
        ⟨"/c".data, 1, 1000000000, 100,
          [("h".data, ⟨"h".data, "/p".data, 1, ⟨9, 0⟩⟩)], 1, 0, []⟩
        ⟨0, 0⟩ false (fun _ => false)).1 1024).2 : Int) :=
  disk_cleanup_watermark
    ⟨"/c".data, 1, 1000000000, 100,
      [("h".data, ⟨"h".data, "/p".data, 1, ⟨9, 0⟩⟩)], 1, 0, []⟩
    ⟨0, 0⟩ false (fun _ => false) ⟨by decide, by decide⟩ (by decide)

end Mage
